import Mathlib

/-!
# MultithreadsComputing.c

A shallow embedding of `src/MultithreadsComputing.c`: the scalar reference
`distance`, the worker `thread_fctn` in its four preprocessor variants, and the
threaded `distance_opt` with its inline range planner.

Conventions of the embedding.

* `float` is an arbitrary carrier `α` with `0`, `+`, `-`, `*` and a function
  `sqrtf : α → α`.  Nothing is assumed about these operations in the
  definitions, so every sum is built in exactly the order in which the C code
  builds it.  Statements that read the arithmetic exactly take `α := ℝ` and
  `sqrtf := Real.sqrt`.
* `float *u` with its length is a `List α`; a read `u [i]` is `u[i]?` and a read
  past the end of the buffer makes the whole computation `none`.
* The buffers start at an address that is aligned for the vector loads of the
  variant (16 bytes for SSE, 32 bytes for AVX), so that the address of `u [i]`
  is aligned exactly when `i` is a multiple of the number of lanes; an aligned
  load (`_mm_load_ps`, `_mm256_load_ps`) at another index faults and makes the
  whole computation `none`.
* `int` values are natural numbers: the statements are about `n ≥ 0` and
  `nprocs ≥ 1`.  For `0 ≤ n ≤ 2^31 - 1` the only values of the planner that can
  leave the range of `int` are the factor `i + 2` and the product `(i + 2) * k`
  of the test of line 176; that test is evaluated in two's complement 32-bit
  arithmetic (`wrap32`), every other value of the planner is at most `n`.
* The preprocessor branch (`__AVX__`, `__SSE__` with or without `__SSE3__`, or
  none of them) is the parameter `Simd`.
* `for (int i = a; i < b; i += c) body` is `for_loop b c _ body a`.
* `end32`, `k32`, `begin32` and `range_end32` redo the planner with every
  operation reduced to a two's complement 32-bit `int`; they serve the
  statement that the two arithmetics agree.
* The workers share nothing but read access to `u` and `v`, and each one writes
  only the `sum` field of its own argument block, so a worker is run to
  completion at the place where `pthread_create` starts it.
-/

namespace MultithreadsComputing

/-! ## Control flow -/

/-- The C loop `for (int i = i0; i < stop; i += step) s = body i s`, started at
`i` in state `s`; a failing body makes the whole loop fail. -/
def for_loop {σ : Type} (stop step : Nat) (hstep : 0 < step)
    (body : Nat → σ → Option σ) (i : Nat) (s : σ) : Option σ :=
  if i < stop then
    match body i s with
    | none => none
    | some s' => for_loop stop step hstep body (i + step) s'
  else some s
termination_by stop - i
decreasing_by omega

/-! ## Vector registers and the intrinsics of `immintrin.h` used by the source -/

/-- A `__m128` register: four lanes, `x0` the lowest. -/
structure M128 (α : Type) where
  x0 : α
  x1 : α
  x2 : α
  x3 : α
  deriving DecidableEq, Repr

/-- A `__m256` register: lanes 0..3 in `lo`, lanes 4..7 in `hi`. -/
structure M256 (α : Type) where
  lo : M128 α
  hi : M128 α
  deriving DecidableEq, Repr

section Intrinsics

variable {α : Type}

/-- Lane `j mod 4` of a `__m128`. -/
def M128.lane (a : M128 α) (j : Nat) : α :=
  match j % 4 with
  | 0 => a.x0
  | 1 => a.x1
  | 2 => a.x2
  | _ => a.x3

/-- Loads the four floats `p [i] .. p [i + 3]` from the 16-byte aligned address
of `p [i]`; the buffer starting at an aligned address, the load faults unless
`i` is a multiple of 4. -/
def _mm_load_ps (p : List α) (i : Nat) : Option (M128 α) :=
  if i % 4 = 0 then do
    let a ← p[i]?
    let b ← p[i + 1]?
    let c ← p[i + 2]?
    let d ← p[i + 3]?
    some ⟨a, b, c, d⟩
  else none

/-- Loads the eight floats `p [i] .. p [i + 7]` from the 32-byte aligned address
of `p [i]`; the buffer starting at an aligned address, the load faults unless
`i` is a multiple of 8. -/
def _mm256_load_ps (p : List α) (i : Nat) : Option (M256 α) :=
  if i % 8 = 0 then do
    let lo ← _mm_load_ps p i
    let hi ← _mm_load_ps p (i + 4)
    some ⟨lo, hi⟩
  else none

/-- Lane-wise square root. -/
def _mm_sqrt_ps (sqrtf : α → α) (a : M128 α) : M128 α :=
  ⟨sqrtf a.x0, sqrtf a.x1, sqrtf a.x2, sqrtf a.x3⟩

/-- Lane-wise difference. -/
def _mm_sub_ps [Sub α] (a b : M128 α) : M128 α :=
  ⟨a.x0 - b.x0, a.x1 - b.x1, a.x2 - b.x2, a.x3 - b.x3⟩

/-- Lane-wise product. -/
def _mm_mul_ps [Mul α] (a b : M128 α) : M128 α :=
  ⟨a.x0 * b.x0, a.x1 * b.x1, a.x2 * b.x2, a.x3 * b.x3⟩

/-- Lane-wise sum. -/
def _mm_add_ps [Add α] (a b : M128 α) : M128 α :=
  ⟨a.x0 + b.x0, a.x1 + b.x1, a.x2 + b.x2, a.x3 + b.x3⟩

/-- Sum of the lowest lanes; the three upper lanes are those of `a`. -/
def _mm_add_ss [Add α] (a b : M128 α) : M128 α :=
  ⟨a.x0 + b.x0, a.x1, a.x2, a.x3⟩

/-- Horizontal sums of adjacent pairs: those of `a` in the two lower lanes, those
of `b` in the two upper lanes; the operands of each sum are written in lane
order. -/
def _mm_hadd_ps [Add α] (a b : M128 α) : M128 α :=
  ⟨a.x0 + a.x1, a.x2 + a.x3, b.x0 + b.x1, b.x2 + b.x3⟩

/-- The two upper lanes of `b` moved to the two lower lanes, the upper lanes of
`a` kept. -/
def _mm_movehl_ps (a b : M128 α) : M128 α :=
  ⟨b.x2, b.x3, a.x2, a.x3⟩

/-- Lanes selected by the four 2-bit fields of `imm8`: the two lower lanes from
`a`, the two upper lanes from `b`. -/
def _mm_shuffle_ps (a b : M128 α) (imm8 : Nat) : M128 α :=
  ⟨a.lane (imm8 % 4), a.lane (imm8 / 4 % 4), b.lane (imm8 / 16 % 4), b.lane (imm8 / 64 % 4)⟩

/-- The lowest lane as a scalar. -/
def _mm_cvtss_f32 (a : M128 α) : α := a.x0

/-- Lane-wise square root. -/
def _mm256_sqrt_ps (sqrtf : α → α) (a : M256 α) : M256 α :=
  ⟨_mm_sqrt_ps sqrtf a.lo, _mm_sqrt_ps sqrtf a.hi⟩

/-- Lane-wise difference. -/
def _mm256_sub_ps [Sub α] (a b : M256 α) : M256 α :=
  ⟨_mm_sub_ps a.lo b.lo, _mm_sub_ps a.hi b.hi⟩

/-- Lane-wise product. -/
def _mm256_mul_ps [Mul α] (a b : M256 α) : M256 α :=
  ⟨_mm_mul_ps a.lo b.lo, _mm_mul_ps a.hi b.hi⟩

/-- The 128-bit half selected by the low bit of `imm8`. -/
def _mm256_extractf128_ps (a : M256 α) (imm8 : Nat) : M128 α :=
  if imm8 % 2 = 1 then a.hi else a.lo

/-- The lower 128-bit half. -/
def _mm256_castps256_ps128 (a : M256 α) : M128 α := a.lo

end Intrinsics

/-! ## The program -/

/-- The preprocessor branch compiled into `thread_fctn` and `distance_opt`. -/
inductive Simd where
  | avx
  | sse3
  | sse
  | scalar
  deriving DecidableEq, Repr

/-- The local `size` of `distance_opt` (lines 146-153): the vector width. -/
def size : Simd → Nat
  | .avx => 8
  | .sse3 => 4
  | .sse => 4
  | .scalar => 1

/-- The struct `thread_args_t`.  The field `end` is spelled `end_`; `sum` is
`none` as long as the block is uninitialised. -/
structure thread_args_t (α : Type) where
  u : List α
  v : List α
  begin : Nat
  end_ : Nat
  sum : Option α

section Program

variable {α : Type} [Zero α] [Add α] [Sub α] [Mul α]

/-- Body of the AVX loop of `thread_fctn` (lines 38-71). -/
def avx_body (sqrtf : α → α) (copy : thread_args_t α) (i : Nat) (sum : α) : Option α := do
  let y1 ← _mm256_load_ps copy.u i
  let y2 ← _mm256_load_ps copy.v i
  let y1 := _mm256_sqrt_ps sqrtf y1
  let y2 := _mm256_sqrt_ps sqrtf y2
  let y3 := _mm256_sub_ps y1 y2
  let y1 := _mm256_mul_ps y3 y3
  let x1 := _mm256_extractf128_ps y1 1
  let x2 := _mm256_castps256_ps128 y1
  let x1 := _mm_add_ps x2 x1
  let x2 := _mm_movehl_ps x1 x1
  let x3 := _mm_add_ps x1 x2
  let x2 := _mm_shuffle_ps x3 x3 0x1
  let x1 := _mm_add_ss x3 x2
  some (sum + _mm_cvtss_f32 x1)

/-- Body of the SSE loop of `thread_fctn` (lines 76-109); `sse3` selects the
inner `#if defined (__SSE3__)` branch. -/
def sse_body (sse3 : Bool) (sqrtf : α → α) (copy : thread_args_t α) (i : Nat) (sum : α) :
    Option α := do
  let x1 ← _mm_load_ps copy.u i
  let x2 ← _mm_load_ps copy.v i
  let x1 := _mm_sqrt_ps sqrtf x1
  let x2 := _mm_sqrt_ps sqrtf x2
  let x3 := _mm_sub_ps x1 x2
  let x1 := _mm_mul_ps x3 x3
  if sse3 then
    let x1 := _mm_hadd_ps x1 x1
    let x1 := _mm_hadd_ps x1 x1
    some (sum + _mm_cvtss_f32 x1)
  else
    let x2 := _mm_movehl_ps x1 x1
    let x2 := _mm_add_ps x1 x2
    let x3 := _mm_shuffle_ps x2 x2 0x1
    let x1 := _mm_add_ss x2 x3
    some (sum + _mm_cvtss_f32 x1)

/-- The horizontal addition of the AVX loop (lines 54-69), applied to the
register `y1` of squared differences: the register `x1` passed to
`_mm_cvtss_f32`. -/
def avx_hadd (y1 : M256 α) : M128 α :=
  let x1 := _mm256_extractf128_ps y1 1
  let x2 := _mm256_castps256_ps128 y1
  let x1 := _mm_add_ps x2 x1
  let x2 := _mm_movehl_ps x1 x1
  let x3 := _mm_add_ps x1 x2
  let x2 := _mm_shuffle_ps x3 x3 0x1
  _mm_add_ss x3 x2

/-- The horizontal addition of the SSE3 branch (lines 93-97), applied to the
register `x1` of squared differences. -/
def sse3_hadd (x1 : M128 α) : M128 α :=
  let x1 := _mm_hadd_ps x1 x1
  _mm_hadd_ps x1 x1

/-- The horizontal addition of the plain SSE branch (lines 98-106), applied to
the register `x1` of squared differences. -/
def sse_hadd (x1 : M128 α) : M128 α :=
  let x2 := _mm_movehl_ps x1 x1
  let x2 := _mm_add_ps x1 x2
  let x3 := _mm_shuffle_ps x2 x2 0x1
  _mm_add_ss x2 x3

/-- Body of the three scalar loops (lines 114-115, 130-131, 199-200). -/
def scalar_body (sqrtf : α → α) (u v : List α) (i : Nat) (d : α) : Option α := do
  let ui ← u[i]?
  let vi ← v[i]?
  let tmp := sqrtf ui - sqrtf vi
  some (d + tmp * tmp)

/-- The worker `thread_fctn` (lines 28-123): the partial sum over
`copy->begin .. copy->end`, stored in `copy->sum`. -/
def thread_fctn (isa : Simd) (sqrtf : α → α) (copy : thread_args_t α) :
    Option (thread_args_t α) := do
  let sum : α := 0
  let sum ←
    match isa with
    | .avx => for_loop copy.end_ 8 (by decide) (avx_body sqrtf copy) copy.begin sum
    | .sse3 => for_loop copy.end_ 4 (by decide) (sse_body true sqrtf copy) copy.begin sum
    | .sse => for_loop copy.end_ 4 (by decide) (sse_body false sqrtf copy) copy.begin sum
    | .scalar =>
      for_loop copy.end_ 1 (by decide) (scalar_body sqrtf copy.u copy.v) copy.begin sum
  some { copy with sum := some sum }

/-- The reference `distance` (lines 126-135). -/
def distance (sqrtf : α → α) (u v : List α) (n : Nat) : Option α :=
  let d : α := 0
  for_loop n 1 (by decide) (scalar_body sqrtf u v) 0 d

end Program

/-- The value of a mathematical integer as a two's complement 32-bit `int`. -/
def wrap32 (x : Int) : Int := (x + 2147483648) % 4294967296 - 2147483648

/-- The local `end` of `distance_opt` (line 156): `n - (n % size)`. -/
def aligned_end (size n : Nat) : Nat := n - (n % size)

/-- The local `k` of `distance_opt` (line 160): `end / nprocs`. -/
def base_chunk (size n nprocs : Nat) : Nat := aligned_end size n / nprocs

/-- The value stored in `args [i]->begin` (line 171). -/
def range_begin (k i : Nat) : Nat := i * k

/-- The value left in `args [i]->end` by lines 172-178; the product `(i + 2) * k`
of the test is the 32-bit one. -/
def range_end (stop k i : Nat) : Nat :=
  if wrap32 (wrap32 ((i : Int) + 2) * (k : Int)) > (stop : Int) then stop else (i + 1) * k

section Program

variable {α : Type} [Zero α] [Add α] [Sub α] [Mul α]

/-- Body of the first loop of `distance_opt` (lines 163-182): fills `args [i]`
and starts worker `i`. -/
def spawn_body (isa : Simd) (sqrtf : α → α) (u v : List α) (stop k : Nat) (i : Nat)
    (args : List (thread_args_t α)) : Option (List (thread_args_t α)) := do
  let a : thread_args_t α :=
    { u := u, v := v, begin := range_begin k i, end_ := range_end stop k i, sum := none }
  let a ← thread_fctn isa sqrtf a
  some (args ++ [a])

/-- Body of the second loop of `distance_opt` (lines 185-194): after the join,
adds `args [i]->sum` to `d`. -/
def join_body (args : List (thread_args_t α)) (i : Nat) (d : α) : Option α := do
  let a ← args[i]?
  let s ← a.sum
  some (d + s)

/-- The threaded `distance_opt` (lines 138-208). -/
def distance_opt (isa : Simd) (sqrtf : α → α) (u v : List α) (n nprocs : Nat) : Option α := do
  let d : α := 0
  let stop := aligned_end (size isa) n
  let k := base_chunk (size isa) n nprocs
  let args ← for_loop nprocs 1 (by decide) (spawn_body isa sqrtf u v stop k) 0 []
  let d ← for_loop nprocs 1 (by decide) (join_body args) 0 d
  let d ← for_loop n 1 (by decide) (scalar_body sqrtf u v) stop d
  some d

end Program

/-! ## The ranges of the planner, as sets of indices -/

/-- The `p` worker ranges `(begin_i, end_i)` that `distance_opt` hands out for
width `w`, length `n` and `p` workers, in worker order. -/
def worker_ranges (w n p : Nat) : List (Nat × Nat) :=
  (List.range p).map fun i =>
    (range_begin (base_chunk w n p) i, range_end (aligned_end w n) (base_chunk w n p) i)

/-- The tail range `(end, n)` of the last loop of `distance_opt`. -/
def tail_range (w n : Nat) : Nat × Nat := (aligned_end w n, n)

/-- Membership of the index `j` in the half-open range `r`. -/
def in_range (r : Nat × Nat) (j : Nat) : Prop := r.1 ≤ j ∧ j < r.2

instance (r : Nat × Nat) (j : Nat) : Decidable (in_range r j) := by
  unfold in_range; infer_instance


/-! ## Vocabulary of the statements -/

/-- The argument block of worker `i` once the worker has stored `s`. -/
def done_args {α : Type} (u v : List α) (stop k i : Nat) (s : α) : thread_args_t α :=
  { u := u, v := v, begin := range_begin k i, end_ := range_end stop k i, sum := some s }

/-- The term of one index: `tmp * tmp` with `tmp = sqrtf x - sqrtf y`. -/
def sq_diff {α : Type} [Sub α] [Mul α] (sqrtf : α → α) (x y : α) : α :=
  (sqrtf x - sqrtf y) * (sqrtf x - sqrtf y)

/-- Left-to-right sum of the terms of the pairs `(us[i], vs[i])` in increasing
index order, starting from `d`. -/
def sum_from {α : Type} [Add α] [Sub α] [Mul α] (sqrtf : α → α) (d : α) (us vs : List α) : α :=
  (List.zip us vs).foldl (fun acc p => acc + sq_diff sqrtf p.1 p.2) d

/-- Agreement of two reals within the relative tolerance `tol`. -/
def rel_close (tol a b : ℝ) : Prop := |a - b| ≤ tol * max |a| |b|

/-- The term of index `i` of the buffers `u`, `v`:
`(sqrtf u[i] - sqrtf v[i]) * (sqrtf u[i] - sqrtf v[i])`. -/
def term_at {α : Type} [Zero α] [Sub α] [Mul α] (sqrtf : α → α) (u v : List α) (i : Nat) : α :=
  sq_diff sqrtf (u.getD i 0) (v.getD i 0)

/-! ## The planner in 32-bit `int` arithmetic -/

/-- Line 156 with every operation in 32 bits: `end = n - (n % size)`. -/
def end32 (size n : Int) : Int := wrap32 (n - wrap32 (Int.tmod n size))

/-- Line 160 with every operation in 32 bits: `k = end / nprocs`. -/
def k32 (size n nprocs : Int) : Int := wrap32 (Int.tdiv (end32 size n) nprocs)

/-- Line 171 with every operation in 32 bits: `begin = i * k`. -/
def begin32 (k i : Int) : Int := wrap32 (i * k)

/-- Lines 172-178 with every operation in 32 bits. -/
def range_end32 (stop k i : Int) : Int :=
  if wrap32 (wrap32 (i + 2) * k) > stop then stop else wrap32 (wrap32 (i + 1) * k)

/-! ## Loops -/

section Loops

variable {σ : Type} (stop step : Nat) (hstep : 0 < step) (body : Nat → σ → Option σ)

/-- A loop whose counter has reached the bound returns its state. -/
theorem for_loop_done (i : Nat) (s : σ) (hi : stop ≤ i) :
    for_loop stop step hstep body i s = some s := by
  rw [for_loop, if_neg (by omega)]

/-- One successful iteration. -/
theorem for_loop_step (i : Nat) (s s' : σ) (hi : i < stop) (hb : body i s = some s') :
    for_loop stop step hstep body i s = for_loop stop step hstep body (i + step) s' := by
  rw [for_loop, if_pos hi, hb]

/-- A failing iteration fails the loop. -/
theorem for_loop_fail (i : Nat) (s : σ) (hi : i < stop) (hb : body i s = none) :
    for_loop stop step hstep body i s = none := by
  rw [for_loop, if_pos hi, hb]

end Loops

/-- The scalar loop from `i` to `stop` over buffers that hold at least `stop`
elements adds the terms of the indices `i .. stop - 1` to `d`, in index order. -/
theorem scalar_loop_eq {α : Type} [Add α] [Sub α] [Mul α]
    (sqrtf : α → α) (u v : List α) (stop : Nat)
    (hu : stop ≤ u.length) (hv : stop ≤ v.length) :
    ∀ (m i : Nat) (d : α), stop - i = m → i ≤ stop →
      for_loop stop 1 (by decide) (scalar_body sqrtf u v) i d
        = some (sum_from sqrtf d ((u.take stop).drop i) ((v.take stop).drop i)) := by
  intro m
  induction m with
  | zero =>
    intro i d hm hi
    have hie : i = stop := by omega
    subst hie
    rw [for_loop_done _ _ _ _ _ _ (Nat.le_refl _)]
    have h1 : (u.take i).drop i = [] := by
      apply List.drop_eq_nil_of_le; simp
    simp [sum_from, h1]
  | succ m ih =>
    intro i d hm hi
    have hlt : i < stop := by omega
    have hiu : i < u.length := by omega
    have hiv : i < v.length := by omega
    have hb : scalar_body sqrtf u v i d = some (d + sq_diff sqrtf u[i] v[i]) := by
      simp [scalar_body, sq_diff, List.getElem?_eq_getElem hiu, List.getElem?_eq_getElem hiv]
    rw [for_loop_step _ _ _ _ _ _ _ hlt hb, ih (i + 1) _ (by omega) (by omega)]
    have h1 : (u.take stop).drop i = u[i] :: (u.take stop).drop (i + 1) := by
      rw [List.drop_eq_getElem_cons (by simp; omega)]
      simp
    have h2 : (v.take stop).drop i = v[i] :: (v.take stop).drop (i + 1) := by
      rw [List.drop_eq_getElem_cons (by simp; omega)]
      simp
    simp [sum_from, h1, h2]

/-! ## The 32-bit test of the planner -/

/-- A value in the range of `int` is its own 32-bit representation. -/
theorem wrap32_eq (x : Int) (h1 : -2147483648 ≤ x) (h2 : x ≤ 2147483647) : wrap32 x = x := by
  unfold wrap32
  omega

/-- A natural number up to `2^31 - 1` is its own 32-bit representation. -/
theorem wrap32_natCast (x : Nat) (h : x ≤ 2147483647) : wrap32 (x : Int) = (x : Int) :=
  wrap32_eq _ (by omega) (by omega)

/-- In 32 bits, a product `a * k` that fits is the unbounded product, as long as
the factor `a` fits or `k = 0`. -/
theorem mul32_eq (a : Int) (x k : Nat) (ha : a = (x : Int))
    (h1 : x ≤ 2147483647 ∨ k = 0) (h2 : x * k ≤ 2147483647) :
    wrap32 (wrap32 a * (k : Int)) = ((x * k : Nat) : Int) := by
  rcases h1 with h1 | h1
  · rw [ha, wrap32_natCast _ h1]
    have e2 : (x : Int) * (k : Int) = ((x * k : Nat) : Int) := by
      push_cast
      rfl
    rw [e2]
    exact wrap32_natCast _ h2
  · subst h1
    rw [Nat.mul_zero, Nat.cast_zero, mul_zero]
    exact wrap32_eq 0 (by omega) (by omega)

/-- A 32-bit value is at most `2^31 - 1`. -/
theorem wrap32_le (x : Int) : wrap32 x ≤ 2147483647 := by
  unfold wrap32
  omega

/-- When the product `(i + 2) * k` fits in an `int`, the test of line 176 is the
test on the unbounded product. -/
theorem range_end_eq (stop k i : Nat) (h : (i + 2) * k ≤ 2147483647) :
    range_end stop k i = if (i + 2) * k > stop then stop else (i + 1) * k := by
  have hfit : i + 2 ≤ 2147483647 ∨ k = 0 := by
    rcases Nat.eq_zero_or_pos k with h0 | h0
    · exact Or.inr h0
    · exact Or.inl (Nat.le_trans (Nat.le_mul_of_pos_right _ h0) h)
  have hm := mul32_eq ((i : Int) + 2) (i + 2) k (by push_cast; rfl) hfit h
  unfold range_end
  rw [hm]
  by_cases ht : (i + 2) * k > stop
  · rw [if_pos ht, if_pos (Int.ofNat_lt.mpr ht)]
  · rw [if_neg ht, if_neg (fun h' => ht (Int.ofNat_lt.mp h'))]

/-- Membership in a range given by its two ends. -/
theorem in_range_iff (a b x : Nat) : in_range (a, b) x ↔ a ≤ x ∧ x < b := Iff.rfl

/-- When the unbounded product `(i + 2) * k` does not exceed `end`, the test of
line 176 fails, whatever the size of `end`. -/
theorem range_end_of_le (stop k i : Nat) (h : (i + 2) * k ≤ stop) :
    range_end stop k i = (i + 1) * k := by
  by_cases hs : stop ≤ 2147483647
  · rw [range_end_eq stop k i (by omega), if_neg (by omega)]
  · unfold range_end
    have := wrap32_le (wrap32 ((i : Int) + 2) * (k : Int))
    rw [if_neg (by omega)]

/-- With `k = 0` every range ends at `0`. -/
theorem range_end_zero (stop i : Nat) : range_end stop 0 i = 0 := by
  rw [range_end_of_le stop 0 i (by simp)]
  simp

/-! ## The structure of `distance_opt` -/

/-- A worker whose range is empty stores `0` and reads nothing. -/
theorem thread_fctn_empty {α : Type} [Zero α] [Add α] [Sub α] [Mul α]
    (isa : Simd) (sqrtf : α → α) (copy : thread_args_t α)
    (h : copy.end_ ≤ copy.begin) :
    thread_fctn isa sqrtf copy = some { copy with sum := some 0 } := by
  cases isa <;> simp [thread_fctn, for_loop_done _ _ _ _ _ _ h]

/-- The first loop of `distance_opt`, when worker `j` stores `part j`. -/
theorem spawn_loop_eq {α : Type} [Zero α] [Add α] [Sub α] [Mul α]
    (isa : Simd) (sqrtf : α → α) (u v : List α) (stop k p : Nat)
    (part : Nat → α)
    (hth : ∀ j, j < p →
      thread_fctn isa sqrtf
          { u := u, v := v, begin := range_begin k j, end_ := range_end stop k j, sum := none }
        = some (done_args u v stop k j (part j))) :
    ∀ (m i : Nat) (acc : List (thread_args_t α)), p - i = m → i ≤ p →
      for_loop p 1 (by decide) (spawn_body isa sqrtf u v stop k) i acc
        = some (acc ++ (List.range' i (p - i)).map fun j => done_args u v stop k j (part j)) := by
  intro m
  induction m with
  | zero =>
    intro i acc hm hi
    have hie : p - i = 0 := hm
    rw [for_loop_done _ _ _ _ _ _ (by omega), hie]
    simp
  | succ m ih =>
    intro i acc hm hi
    have hlt : i < p := by omega
    have hb : spawn_body isa sqrtf u v stop k i acc
        = some (acc ++ [done_args u v stop k i (part i)]) := by
      simp [spawn_body, hth i hlt]
    rw [for_loop_step _ _ _ _ _ _ _ hlt hb, ih (i + 1) _ (by omega) (by omega)]
    have hs : p - i = (p - (i + 1)) + 1 := by omega
    rw [hs, List.range'_succ]
    simp

/-- The second loop of `distance_opt` over the blocks left by the first one. -/
theorem join_loop_eq {α : Type} [Add α] (u v : List α) (stop k p : Nat) (part : Nat → α) :
    ∀ (m i : Nat) (d : α), p - i = m → i ≤ p →
      for_loop p 1 (by decide)
          (join_body ((List.range' 0 p).map fun j => done_args u v stop k j (part j))) i d
        = some ((List.range' i (p - i)).foldl (fun acc j => acc + part j) d) := by
  intro m
  induction m with
  | zero =>
    intro i d hm hi
    have hie : p - i = 0 := hm
    rw [for_loop_done _ _ _ _ _ _ (by omega), hie]
    simp
  | succ m ih =>
    intro i d hm hi
    have hlt : i < p := by omega
    have hb : join_body ((List.range' 0 p).map fun j => done_args u v stop k j (part j)) i d
        = some (d + part i) := by
      simp [join_body, List.getElem?_map, List.getElem?_range', hlt, done_args]
    rw [for_loop_step _ _ _ _ _ _ _ hlt hb, ih (i + 1) _ (by omega) (by omega)]
    have hs : p - i = (p - (i + 1)) + 1 := by omega
    rw [hs, List.range'_succ]
    simp

/-- When worker `j` stores `part j`, `distance_opt` adds the partial sums in worker
order, starting from `0`, and then runs the tail loop from `end` to `n`. -/
theorem distance_opt_eq {α : Type} [Zero α] [Add α] [Sub α] [Mul α]
    (isa : Simd) (sqrtf : α → α) (u v : List α) (n p : Nat)
    (part : Nat → α)
    (hth : ∀ j, j < p →
      thread_fctn isa sqrtf
          { u := u, v := v, begin := range_begin (base_chunk (size isa) n p) j,
            end_ := range_end (aligned_end (size isa) n) (base_chunk (size isa) n p) j,
            sum := none }
        = some (done_args u v (aligned_end (size isa) n) (base_chunk (size isa) n p) j
            (part j))) :
    distance_opt isa sqrtf u v n p
      = for_loop n 1 (by decide) (scalar_body sqrtf u v) (aligned_end (size isa) n)
          ((List.range' 0 p).foldl (fun acc j => acc + part j) 0) := by
  unfold distance_opt
  simp only []
  rw [spawn_loop_eq isa sqrtf u v _ _ p part hth p 0 [] (by omega) (by omega)]
  simp only [Nat.sub_zero, List.nil_append, Option.bind_eq_bind, Option.some_bind]
  rw [join_loop_eq u v _ _ p part p 0 0 (by omega) (by omega)]
  simp

/-! ## Facts about the carrier `ℝ` -/

/-- The square root of `4`. -/
theorem sqrt_four : Real.sqrt 4 = 2 := by
  rw [show (4 : ℝ) = 2 ^ 2 by norm_num]
  exact Real.sqrt_sq (by norm_num)

/-- The square root of `9`. -/
theorem sqrt_nine : Real.sqrt 9 = 3 := by
  rw [show (9 : ℝ) = 3 ^ 2 by norm_num]
  exact Real.sqrt_sq (by norm_num)

/-- The square root of `16`. -/
theorem sqrt_sixteen : Real.sqrt 16 = 4 := by
  rw [show (16 : ℝ) = 4 ^ 2 by norm_num]
  exact Real.sqrt_sq (by norm_num)

/-- Adding `p` partial sums that are all `0` to `0` leaves `0`. -/
theorem foldl_add_zero {α : Type} [AddZeroClass α] (l : List Nat) :
    l.foldl (fun (acc : α) _ => acc + 0) 0 = 0 := by
  induction l with
  | nil => rfl
  | cons x xs ih => simp

/-! ## The planner -/

/-- With an aligned end of `0` every worker range is `(0, 0)`. -/
theorem worker_ranges_of_aligned_end_zero (w n p : Nat) (h : aligned_end w n = 0) :
    ∀ r ∈ worker_ranges w n p, r = (0, 0) := by
  intro r hr
  simp only [worker_ranges, List.mem_map, List.mem_range] at hr
  obtain ⟨i, _, rfl⟩ := hr
  simp [base_chunk, h, range_begin, range_end_zero]

/-- C4: `end = n - n mod w` is the largest multiple of `w` that is at most `n`;
the tail range `[end, n)` has length `n mod w`, which is below `w`; and when
`n < w` the aligned end is `0`, every worker range is empty and the tail is the
whole of `[0, n)`. -/
theorem aligned_end_spec (isa : Simd) (n : Nat) :
    size isa ∣ aligned_end (size isa) n
    ∧ aligned_end (size isa) n ≤ n
    ∧ (∀ m, size isa ∣ m → m ≤ n → m ≤ aligned_end (size isa) n)
    ∧ tail_range (size isa) n = (aligned_end (size isa) n, n)
    ∧ n - aligned_end (size isa) n = n % size isa
    ∧ n % size isa < size isa
    ∧ (n < size isa →
        aligned_end (size isa) n = 0
        ∧ (∀ p, ∀ r ∈ worker_ranges (size isa) n p, r = (0, 0))
        ∧ tail_range (size isa) n = (0, n)) := by
  have hpos : 0 < size isa := by cases isa <;> decide
  have hmod : n % size isa ≤ n := Nat.mod_le _ _
  have hlt : n % size isa < size isa := Nat.mod_lt _ hpos
  have hdiv : size isa ∣ aligned_end (size isa) n := by
    unfold aligned_end
    exact Nat.dvd_sub_mod n
  refine ⟨hdiv, by unfold aligned_end; omega, ?_, rfl, by unfold aligned_end; omega, hlt, ?_⟩
  · rintro m ⟨c, rfl⟩ hm
    unfold aligned_end
    have h1 : size isa * c ≤ size isa * (n / size isa) :=
      Nat.mul_le_mul_left _ ((Nat.le_div_iff_mul_le hpos).mpr (by rw [Nat.mul_comm]; exact hm))
    have h2 := Nat.div_add_mod n (size isa)
    omega
  · intro hn
    have h0 : aligned_end (size isa) n = 0 := by
      unfold aligned_end
      rw [Nat.mod_eq_of_lt hn]
      omega
    exact ⟨h0, fun p => worker_ranges_of_aligned_end_zero _ _ p h0, by simp [tail_range, h0]⟩

/-! ## The scalar reference -/

/-- On buffers of length `n`, `distance` is the accumulation `sum_from` from `0`. -/
theorem distance_sum_from {α : Type} [Zero α] [Add α] [Sub α] [Mul α]
    (sqrtf : α → α) (u v : List α) (n : Nat) (hu : u.length = n) (hv : v.length = n) :
    distance sqrtf u v n = some (sum_from sqrtf 0 u v) := by
  unfold distance
  rw [scalar_loop_eq sqrtf u v n (by omega) (by omega) n 0 0 (by omega) (by omega)]
  rw [← hu, List.take_length, List.drop_zero, hu, ← hv, List.take_length, List.drop_zero]

/-- C10: on buffers of length `n`, `distance` returns the left-to-right sum,
starting from `0` and in increasing index order, of the terms
`(sqrtf u[i] - sqrtf v[i]) * (sqrtf u[i] - sqrtf v[i])`; no law of arithmetic is
used, so the order of the additions is the one of the code. -/
theorem distance_eq_sum_in_order {α : Type} [Zero α] [Add α] [Sub α] [Mul α]
    (sqrtf : α → α) (u v : List α) (n : Nat) (hu : u.length = n) (hv : v.length = n) :
    distance sqrtf u v n
      = some ((List.zip u v).foldl
          (fun acc p => acc + (sqrtf p.1 - sqrtf p.2) * (sqrtf p.1 - sqrtf p.2)) 0) :=
  distance_sum_from sqrtf u v n hu hv

/-- Witness of C10 on the real buffers `[1, 4, 9]` and `[1, 1, 1]`. -/
theorem distance_eq_sum_in_order_witness :
    ([1, 4, 9] : List ℝ).length = 3 ∧ ([1, 1, 1] : List ℝ).length = 3
    ∧ distance Real.sqrt [1, 4, 9] [1, 1, 1] 3
      = some ((List.zip [1, 4, 9] [1, 1, 1]).foldl
          (fun acc p => acc + (Real.sqrt p.1 - Real.sqrt p.2) * (Real.sqrt p.1 - Real.sqrt p.2))
          0) :=
  ⟨rfl, rfl, distance_eq_sum_in_order Real.sqrt [1, 4, 9] [1, 1, 1] 3 rfl rfl⟩

/-- The sum of the terms of a buffer against itself is the starting value. -/
theorem sum_from_self (d : ℝ) (us : List ℝ) : sum_from Real.sqrt d us us = d := by
  induction us generalizing d with
  | nil => rfl
  | cons x xs ih =>
    have := ih (d + sq_diff Real.sqrt x x)
    simp only [sum_from, List.zip_cons_cons, List.foldl_cons] at this ⊢
    rw [this]
    simp [sq_diff]

/-- The reference `distance` of a buffer to itself is `0`. -/
theorem distance_self (u : List ℝ) (n : Nat) (hu : u.length = n) :
    distance Real.sqrt u u n = some 0 := by
  rw [distance_sum_from Real.sqrt u u n hu hu, sum_from_self]

/-! ## Degenerate lengths -/

/-- When the aligned end is `0`, `distance_opt` is the tail loop over `[0, n)`
started from the sum of `p` partial sums `0`. -/
theorem distance_opt_of_aligned_end_zero {α : Type} [AddZeroClass α] [Sub α] [Mul α]
    (isa : Simd) (sqrtf : α → α) (u v : List α) (n p : Nat)
    (h : aligned_end (size isa) n = 0) :
    distance_opt isa sqrtf u v n p
      = for_loop n 1 (by decide) (scalar_body sqrtf u v) 0 0 := by
  rw [distance_opt_eq isa sqrtf u v n p (fun _ => 0), h, foldl_add_zero]
  intro j _
  rw [thread_fctn_empty]
  · simp only [done_args]
  · simp [base_chunk, h, range_begin, range_end_zero]

/-- C6: for `n = 0`, every variant and every `p ≥ 1`, `distance` and
`distance_opt` return exactly `0`: every worker range is `(0, 0)`, every worker
stores the partial sum `0`, and the tail range `(0, 0)` is empty. -/
theorem distance_zero_length {α : Type} [AddZeroClass α] [Sub α] [Mul α]
    (isa : Simd) (sqrtf : α → α) (u v : List α) (p : Nat) (_hp : 1 ≤ p) :
    distance sqrtf u v 0 = some 0
    ∧ distance_opt isa sqrtf u v 0 p = some 0
    ∧ (∀ r ∈ worker_ranges (size isa) 0 p, r = (0, 0))
    ∧ (∀ i, i < p →
        thread_fctn isa sqrtf
            { u := u, v := v, begin := range_begin (base_chunk (size isa) 0 p) i,
              end_ := range_end (aligned_end (size isa) 0) (base_chunk (size isa) 0 p) i,
              sum := none }
          = some (done_args u v (aligned_end (size isa) 0) (base_chunk (size isa) 0 p) i 0))
    ∧ tail_range (size isa) 0 = (0, 0) := by
  have h0 : aligned_end (size isa) 0 = 0 := by simp [aligned_end]
  refine ⟨?_, ?_, worker_ranges_of_aligned_end_zero _ _ p h0, ?_, by simp [tail_range, h0]⟩
  · unfold distance
    exact for_loop_done _ _ _ _ _ _ (Nat.le_refl _)
  · rw [distance_opt_of_aligned_end_zero isa sqrtf u v 0 p h0]
    exact for_loop_done _ _ _ _ _ _ (Nat.le_refl _)
  · intro i _
    rw [thread_fctn_empty]
    · simp only [done_args]
    · simp [base_chunk, h0, range_begin, range_end_zero]

/-- Witness of C6 for the AVX variant, empty buffers of reals and four workers. -/
theorem distance_zero_length_witness :
    1 ≤ 4
    ∧ distance Real.sqrt [] [] 0 = some 0
    ∧ distance_opt Simd.avx Real.sqrt [] [] 0 4 = some 0 :=
  ⟨by decide, (distance_zero_length Simd.avx Real.sqrt [] [] 4 (by decide)).1,
    (distance_zero_length Simd.avx Real.sqrt [] [] 4 (by decide)).2.1⟩

/-- C5 (amended): for `n = 1` and `p ≥ 1`, `distance` returns
`(√a - √b)²`; in the three SIMD variants (width 4 or 8) every worker range is
`(0, 0)`, the tail range is `(0, 1)` and `distance_opt` returns `(√a - √b)²`; in
the scalar variant (width 1) with one worker the element lies in the range
`(0, 1)` of worker 0, the tail range `(1, 1)` is empty, and `distance_opt` again
returns `(√a - √b)²`. -/
theorem distance_opt_single (a b : ℝ) (p : Nat) (_hp : 1 ≤ p) :
    distance Real.sqrt [a] [b] 1 = some ((Real.sqrt a - Real.sqrt b) ^ 2)
    ∧ ((∀ r ∈ worker_ranges (size Simd.avx) 1 p, r = (0, 0))
        ∧ tail_range (size Simd.avx) 1 = (0, 1)
        ∧ distance_opt Simd.avx Real.sqrt [a] [b] 1 p
            = some ((Real.sqrt a - Real.sqrt b) ^ 2))
    ∧ ((∀ r ∈ worker_ranges (size Simd.sse3) 1 p, r = (0, 0))
        ∧ tail_range (size Simd.sse3) 1 = (0, 1)
        ∧ distance_opt Simd.sse3 Real.sqrt [a] [b] 1 p
            = some ((Real.sqrt a - Real.sqrt b) ^ 2))
    ∧ ((∀ r ∈ worker_ranges (size Simd.sse) 1 p, r = (0, 0))
        ∧ tail_range (size Simd.sse) 1 = (0, 1)
        ∧ distance_opt Simd.sse Real.sqrt [a] [b] 1 p
            = some ((Real.sqrt a - Real.sqrt b) ^ 2))
    ∧ (worker_ranges (size Simd.scalar) 1 1 = [(0, 1)]
        ∧ tail_range (size Simd.scalar) 1 = (1, 1)
        ∧ distance_opt Simd.scalar Real.sqrt [a] [b] 1 1
            = some ((Real.sqrt a - Real.sqrt b) ^ 2)) := by
  have hd : for_loop 1 1 (by decide) (scalar_body Real.sqrt [a] [b]) 0 (0 : ℝ)
      = some ((Real.sqrt a - Real.sqrt b) ^ 2) := by
    simp [for_loop, scalar_body, sq]
  have simd : ∀ isa : Simd, aligned_end (size isa) 1 = 0 →
      (∀ r ∈ worker_ranges (size isa) 1 p, r = (0, 0))
        ∧ tail_range (size isa) 1 = (0, 1)
        ∧ distance_opt isa Real.sqrt [a] [b] 1 p
            = some ((Real.sqrt a - Real.sqrt b) ^ 2) := by
    intro isa h0
    refine ⟨worker_ranges_of_aligned_end_zero _ _ p h0, by simp [tail_range, h0], ?_⟩
    rw [distance_opt_of_aligned_end_zero isa Real.sqrt [a] [b] 1 p h0, hd]
  refine ⟨hd, simd _ (by decide), simd _ (by decide), simd _ (by decide), by decide, by decide, ?_⟩
  simp [distance_opt, for_loop, spawn_body, join_body, thread_fctn, scalar_body, aligned_end,
    base_chunk, size, range_begin, range_end, wrap32, sq]

/-- Witness of C5 (amended) at `a = 4`, `b = 1` and three workers. -/
theorem distance_opt_single_witness :
    1 ≤ 3 ∧ distance_opt Simd.sse3 Real.sqrt [4] [1] 1 3
      = some ((Real.sqrt 4 - Real.sqrt 1) ^ 2) :=
  ⟨by decide, (distance_opt_single 4 1 3 (by decide)).2.2.1.2.2⟩

/-- C5 (counterexample): in the scalar variant with `n = 1` and one worker, the
range of worker 0 is `(0, 1)` and holds index 0, while the tail range `(1, 1)`
does not: the element is not in the tail, and not every worker range is empty. -/
theorem single_element_not_in_tail :
    ¬ ((∀ r ∈ worker_ranges (size Simd.scalar) 1 1, r.1 = r.2)
        ∧ in_range (tail_range (size Simd.scalar) 1) 0) := by
  decide

/-- C7: on `u = [1, 4, 9, 16]`, `v = [1, 1, 1, 1]`, `n = 4`, in the scalar variant
with two workers, `distance` and `distance_opt` both return `14`; the workers
get the ranges `(0, 2)` and `(2, 4)` and the tail range `(4, 4)` is empty. -/
theorem scenario_fourteen :
    distance Real.sqrt [1, 4, 9, 16] [1, 1, 1, 1] 4 = some 14
    ∧ distance_opt Simd.scalar Real.sqrt [1, 4, 9, 16] [1, 1, 1, 1] 4 2 = some 14
    ∧ worker_ranges (size Simd.scalar) 4 2 = [(0, 2), (2, 4)]
    ∧ tail_range (size Simd.scalar) 4 = (4, 4) := by
  refine ⟨?_, ?_, by decide, by decide⟩
  · simp [distance, for_loop, scalar_body, sqrt_four, sqrt_nine, sqrt_sixteen]
    norm_num
  · simp [distance_opt, for_loop, spawn_body, join_body, thread_fctn, scalar_body, aligned_end,
      base_chunk, size, range_begin, range_end, wrap32, sqrt_four, sqrt_nine, sqrt_sixteen]
    norm_num

/-! ## Identical buffers -/

/-- A property that every successful iteration preserves holds of the final
state of a loop that returns. -/
theorem for_loop_preserves {σ : Type} (P : σ → Prop) (stop step : Nat) (hstep : 0 < step)
    (body : Nat → σ → Option σ) (hbody : ∀ i s s', P s → body i s = some s' → P s') :
    ∀ (m i : Nat) (s r : σ), stop - i ≤ m → P s →
      for_loop stop step hstep body i s = some r → P r := by
  intro m
  induction m with
  | zero =>
    intro i s r hm hs hr
    rw [for_loop_done _ _ _ _ _ _ (by omega)] at hr
    cases hr
    exact hs
  | succ m ih =>
    intro i s r hm hs hr
    by_cases hi : i < stop
    · cases hb : body i s with
      | none =>
        rw [for_loop_fail _ _ _ _ _ _ hi hb] at hr
        cases hr
      | some s' =>
        rw [for_loop_step _ _ _ _ _ _ _ hi hb] at hr
        exact ih (i + step) s' r (by omega) (hbody i s s' hs hb) hr
    · rw [for_loop_done _ _ _ _ _ _ (by omega)] at hr
      cases hr
      exact hs

/-- A scalar iteration on a buffer against itself adds `0`. -/
theorem scalar_body_self (u : List ℝ) (i : Nat) (d d' : ℝ)
    (h : scalar_body Real.sqrt u u i d = some d') : d' = d := by
  unfold scalar_body at h
  cases hu : u[i]? with
  | none => simp [hu] at h
  | some x =>
    simp [hu] at h
    exact h.symm

/-- An SSE iteration on a buffer against itself adds `0`. -/
theorem sse_body_self (sse3 : Bool) (copy : thread_args_t ℝ) (huv : copy.v = copy.u)
    (i : Nat) (d d' : ℝ) (h : sse_body sse3 Real.sqrt copy i d = some d') : d' = d := by
  unfold sse_body at h
  rw [huv] at h
  cases hu : _mm_load_ps copy.u i with
  | none => simp [hu] at h
  | some x =>
    cases sse3 <;>
    simp [hu, _mm_sqrt_ps, _mm_sub_ps, _mm_mul_ps, _mm_hadd_ps, _mm_movehl_ps, _mm_add_ps,
      _mm_shuffle_ps, _mm_add_ss, _mm_cvtss_f32, M128.lane] at h <;>
    exact h.symm

/-- An AVX iteration on a buffer against itself adds `0`. -/
theorem avx_body_self (copy : thread_args_t ℝ) (huv : copy.v = copy.u)
    (i : Nat) (d d' : ℝ) (h : avx_body Real.sqrt copy i d = some d') : d' = d := by
  unfold avx_body at h
  rw [huv] at h
  cases hu : _mm256_load_ps copy.u i with
  | none => simp [hu] at h
  | some x =>
    simp [hu, _mm256_sqrt_ps, _mm256_sub_ps, _mm256_mul_ps, _mm256_extractf128_ps,
      _mm256_castps256_ps128, _mm_sqrt_ps, _mm_sub_ps, _mm_mul_ps, _mm_movehl_ps, _mm_add_ps,
      _mm_shuffle_ps, _mm_add_ss, _mm_cvtss_f32, M128.lane] at h
    exact h.symm

/-- A worker on a buffer against itself stores `0` whenever it returns. -/
theorem thread_fctn_self (isa : Simd) (copy a : thread_args_t ℝ) (huv : copy.v = copy.u)
    (h : thread_fctn isa Real.sqrt copy = some a) : a.sum = some 0 := by
  have key : ∀ (step : Nat) (hstep : 0 < step) (body : Nat → ℝ → Option ℝ),
      (∀ i d d', body i d = some d' → d' = d) →
      ∀ r, for_loop copy.end_ step hstep body copy.begin 0 = some r → r = 0 := by
    intro step hstep body hbody r hr
    exact for_loop_preserves (fun d => d = 0) _ _ hstep body
      (fun i s s' hs hb => by rw [hbody i s s' hb]; exact hs) _ _ _ _ (Nat.le_refl _) rfl hr
  unfold thread_fctn at h
  cases isa
  · cases hl : for_loop copy.end_ 8 (by decide) (avx_body Real.sqrt copy) copy.begin 0 with
    | none => simp [hl] at h
    | some r =>
      have := key 8 (by decide) _ (avx_body_self copy huv) r hl
      simp [hl] at h
      rw [← h, this]
  · cases hl : for_loop copy.end_ 4 (by decide) (sse_body true Real.sqrt copy) copy.begin 0 with
    | none => simp [hl] at h
    | some r =>
      have := key 4 (by decide) _ (sse_body_self true copy huv) r hl
      simp [hl] at h
      rw [← h, this]
  · cases hl : for_loop copy.end_ 4 (by decide) (sse_body false Real.sqrt copy) copy.begin 0 with
    | none => simp [hl] at h
    | some r =>
      have := key 4 (by decide) _ (sse_body_self false copy huv) r hl
      simp [hl] at h
      rw [← h, this]
  · rw [huv] at h
    cases hl : for_loop copy.end_ 1 (by decide) (scalar_body Real.sqrt copy.u copy.u)
        copy.begin 0 with
    | none => simp [hl] at h
    | some r =>
      have := key 1 (by decide) _ (scalar_body_self copy.u) r hl
      simp [hl] at h
      rw [← h, this]

/-- Whatever the variant, the length and the number of workers, a result of
`distance_opt` on a buffer against itself is `0`: the only way in which
`distance_opt` misses the value `0` there is a faulting vector load, misaligned
or past the last element of the buffer. -/
theorem distance_opt_self_of_some (isa : Simd) (u : List ℝ) (n p : Nat) (r : ℝ)
    (h : distance_opt isa Real.sqrt u u n p = some r) : r = 0 := by
  unfold distance_opt at h
  simp only [] at h
  cases hs : for_loop p 1 (by decide)
      (spawn_body isa Real.sqrt u u (aligned_end (size isa) n) (base_chunk (size isa) n p))
      0 [] with
  | none => simp [hs] at h
  | some args =>
    have hargs : ∀ a ∈ args, a.sum = some 0 := by
      refine for_loop_preserves (fun l : List (thread_args_t ℝ) => ∀ a ∈ l, a.sum = some 0)
        _ _ _ _ ?_ _ _ _ _ (Nat.le_refl _) (by simp) hs
      intro i l l' hl hb
      unfold spawn_body at hb
      simp only [] at hb
      cases ht : thread_fctn isa Real.sqrt
          { u := u, v := u, begin := range_begin (base_chunk (size isa) n p) i,
            end_ := range_end (aligned_end (size isa) n) (base_chunk (size isa) n p) i,
            sum := none } with
      | none => simp [ht] at hb
      | some a =>
        simp [ht] at hb
        subst hb
        intro b hb'
        rcases List.mem_append.mp hb' with hb' | hb'
        · exact hl b hb'
        · rw [List.mem_singleton.mp hb']
          exact thread_fctn_self isa _ a rfl ht
    simp only [hs, Option.bind_eq_bind, Option.some_bind] at h
    cases hj : for_loop p 1 (by decide) (join_body args) 0 (0 : ℝ) with
    | none => simp [hj] at h
    | some d =>
      have hd : d = 0 := by
        refine for_loop_preserves (fun d : ℝ => d = 0) _ _ _ _ ?_ _ _ _ _ (Nat.le_refl _) rfl hj
        intro i s s' hs' hb
        unfold join_body at hb
        cases ha : args[i]? with
        | none => simp [ha] at hb
        | some a =>
          have := hargs a (List.getElem?_mem ha)
          simp [ha, this] at hb
          rw [← hb, hs']
      simp only [hj, Option.some_bind] at h
      cases ht : for_loop n 1 (by decide) (scalar_body Real.sqrt u u)
          (aligned_end (size isa) n) d with
      | none => simp [ht] at h
      | some t =>
        simp [ht] at h
        subst h
        refine for_loop_preserves (fun d : ℝ => d = 0) _ _ _ _ ?_ _ _ _ _ (Nat.le_refl _) hd ht
        intro i s s' hs' hb
        rw [scalar_body_self u i s s' hb]
        exact hs'

/-! ## The scalar variant -/

/-- The end of the range of a worker `i < p` never exceeds the aligned end. -/
theorem range_end_le (E p i : Nat) (hi : i < p) : range_end E (E / p) i ≤ E := by
  unfold range_end
  split
  · exact Nat.le_refl _
  · have h1 : (i + 1) * (E / p) ≤ p * (E / p) := Nat.mul_le_mul_right _ (by omega)
    have h2 := Nat.mul_div_le E p
    omega

/-- The aligned end never exceeds the length. -/
theorem aligned_end_le (w n : Nat) : aligned_end w n ≤ n := by
  unfold aligned_end
  omega

/-- In the scalar variant a worker whose range ends inside the buffers stores the
left-to-right sum of the terms of its range. -/
theorem thread_fctn_scalar_eq {α : Type} [Zero α] [Add α] [Sub α] [Mul α]
    (sqrtf : α → α) (u v : List α) (b e : Nat) (hu : e ≤ u.length) (hv : e ≤ v.length) :
    thread_fctn Simd.scalar sqrtf { u := u, v := v, begin := b, end_ := e, sum := none }
      = some { u := u, v := v, begin := b, end_ := e,
               sum := some (sum_from sqrtf 0 ((u.take e).drop b) ((v.take e).drop b)) } := by
  unfold thread_fctn
  by_cases hbe : b ≤ e
  · simp only []
    rw [scalar_loop_eq sqrtf u v e hu hv (e - b) b 0 rfl hbe]
    rfl
  · simp only []
    rw [for_loop_done _ _ _ _ _ _ (by omega)]
    have h1 : (u.take e).drop b = [] := by
      apply List.drop_eq_nil_of_le
      simp
      omega
    simp [h1, sum_from]

/-- In the scalar variant, on buffers of length `n`, `distance_opt` returns the
sum, in worker order and starting from `0`, of the partial sums of the worker
ranges; the tail is empty. -/
theorem distance_opt_scalar_eq {α : Type} [Zero α] [Add α] [Sub α] [Mul α]
    (sqrtf : α → α) (u v : List α) (n p : Nat) (hu : u.length = n) (hv : v.length = n) :
    distance_opt Simd.scalar sqrtf u v n p
      = some ((List.range' 0 p).foldl
          (fun acc j => acc + sum_from sqrtf 0
            ((u.take (range_end (aligned_end 1 n) (base_chunk 1 n p) j)).drop
              (range_begin (base_chunk 1 n p) j))
            ((v.take (range_end (aligned_end 1 n) (base_chunk 1 n p) j)).drop
              (range_begin (base_chunk 1 n p) j))) 0) := by
  have hle : ∀ j, j < p → range_end (aligned_end 1 n) (base_chunk 1 n p) j ≤ n :=
    fun j hj => Nat.le_trans (range_end_le (aligned_end 1 n) p j hj) (aligned_end_le _ _)
  rw [distance_opt_eq Simd.scalar sqrtf u v n p (fun j => sum_from sqrtf 0
            ((u.take (range_end (aligned_end 1 n) (base_chunk 1 n p) j)).drop
              (range_begin (base_chunk 1 n p) j))
            ((v.take (range_end (aligned_end 1 n) (base_chunk 1 n p) j)).drop
              (range_begin (base_chunk 1 n p) j)))]
  · have hE : aligned_end (size Simd.scalar) n = n := by simp [aligned_end, size, Nat.mod_one]
    rw [hE, for_loop_done _ _ _ _ _ _ (Nat.le_refl _)]
  · intro j hj
    exact thread_fctn_scalar_eq sqrtf u v _ _ (by rw [hu]; exact hle j hj)
      (by rw [hv]; exact hle j hj)

/-- In the scalar variant `distance_opt` of a buffer of length `n` against itself
is `0` for every number of workers. -/
theorem distance_opt_scalar_self (u : List ℝ) (n p : Nat) (hu : u.length = n) :
    distance_opt Simd.scalar Real.sqrt u u n p = some 0 := by
  have h := distance_opt_scalar_eq Real.sqrt u u n p hu hu
  rw [h, distance_opt_self_of_some Simd.scalar u n p _ h]

/-! ## Inputs on which the planner of `distance_opt` misses its purpose

The extension test `(i + 2) * k > end` of line 176 holds for the last worker
only when `end / nprocs > end mod nprocs`, and `k = end / nprocs` is not rounded
to a multiple of `size`. -/

/-- C1 (failing input): in the scalar variant with `n = 5` and four workers the
ranges are `(0, 1)`, `(1, 2)`, `(2, 3)`, `(3, 4)` and the tail is `(5, 5)`, so
index 4 of `[0, 5)` is in no range; in the AVX variant with `n = 8` and three
workers the ranges are `(0, 2)`, `(2, 4)`, `(4, 6)` and the tail is `(8, 8)`, so
index 6 of `[0, 8)` is in no range. -/
theorem planner_leaves_gap :
    (worker_ranges (size Simd.scalar) 5 4 = [(0, 1), (1, 2), (2, 3), (3, 4)]
      ∧ tail_range (size Simd.scalar) 5 = (5, 5)
      ∧ ¬ ∃ r ∈ tail_range (size Simd.scalar) 5 :: worker_ranges (size Simd.scalar) 5 4,
          in_range r 4)
    ∧ (worker_ranges (size Simd.avx) 8 3 = [(0, 2), (2, 4), (4, 6)]
      ∧ tail_range (size Simd.avx) 8 = (8, 8)
      ∧ ¬ ∃ r ∈ tail_range (size Simd.avx) 8 :: worker_ranges (size Simd.avx) 8 3,
          in_range r 6) := by
  decide

/-- C2 (failing input): for `u = [1 × 8]`, `v = [0 × 8]`, `n = 8` and sixteen
workers, `distance` returns `8` while `distance_opt` returns `0` in every
variant (`k = 8 / 16 = 0`, every worker range is empty and so is the tail); `8`
and `0` do not agree within the relative tolerance `1e-4`. -/
theorem distance_opt_far_from_distance :
    distance Real.sqrt [1, 1, 1, 1, 1, 1, 1, 1] [0, 0, 0, 0, 0, 0, 0, 0] 8 = some 8
    ∧ (∀ isa, distance_opt isa Real.sqrt [1, 1, 1, 1, 1, 1, 1, 1] [0, 0, 0, 0, 0, 0, 0, 0] 8 16
        = some 0)
    ∧ ¬ rel_close (1 / 10000) 8 0 := by
  refine ⟨?_, ?_, ?_⟩
  · simp [distance, for_loop, scalar_body]
    norm_num
  · intro isa
    cases isa <;>
    simp [distance_opt, for_loop, spawn_body, join_body, thread_fctn, aligned_end, base_chunk,
      size, range_begin, range_end, wrap32]
  · simp [rel_close]
    norm_num

/-- C3 (failing input): in the AVX variant with `n = 8` and two workers the
ranges are `(0, 4)` and `(4, 8)`, of length 4, which is not a multiple of 8.  On
`u = [1 × 8]`, `v = [0 × 8]` worker 0 stores `8`, the sum over the indices
`0 .. 7` and not over its range `0 .. 3`, and worker 1 loads `u [4] .. u [11]`,
past the end of the buffers. -/
theorem chunk_not_multiple_of_width :
    worker_ranges (size Simd.avx) 8 2 = [(0, 4), (4, 8)]
    ∧ ¬ (size Simd.avx ∣ 4 - 0)
    ∧ ¬ (size Simd.avx ∣ 8 - 4)
    ∧ thread_fctn Simd.avx Real.sqrt
        { u := [1, 1, 1, 1, 1, 1, 1, 1], v := [0, 0, 0, 0, 0, 0, 0, 0],
          begin := 0, end_ := 4, sum := none }
      = some { u := [1, 1, 1, 1, 1, 1, 1, 1], v := [0, 0, 0, 0, 0, 0, 0, 0],
               begin := 0, end_ := 4, sum := some 8 }
    ∧ thread_fctn Simd.avx Real.sqrt
        { u := [1, 1, 1, 1, 1, 1, 1, 1], v := [0, 0, 0, 0, 0, 0, 0, 0],
          begin := 4, end_ := 8, sum := none }
      = none := by
  refine ⟨by decide, by decide, by decide, ?_, ?_⟩
  · simp [thread_fctn, for_loop, avx_body, _mm256_load_ps, _mm_load_ps, _mm256_sqrt_ps,
      _mm_sqrt_ps, _mm256_sub_ps, _mm_sub_ps, _mm256_mul_ps, _mm_mul_ps, _mm256_extractf128_ps,
      _mm256_castps256_ps128, _mm_add_ps, _mm_movehl_ps, _mm_shuffle_ps, _mm_add_ss,
      _mm_cvtss_f32, M128.lane]
    norm_num
  · simp [thread_fctn, for_loop, avx_body, _mm256_load_ps, _mm_load_ps]

/-- C8 (failing input): in the AVX variant with `n = 8`, two workers and
`u = v = [1 × 8]`, `distance` returns `0`, but worker 1 of `distance_opt` has the
range `(4, 8)` and loads `u [4] .. u [11]`, past the last element of the buffer,
so `distance_opt` has no result.  (`distance_self`, `distance_opt_scalar_self`
and `distance_opt_self_of_some` give the part of C8 that holds.) -/
theorem distance_opt_self_out_of_bounds :
    distance Real.sqrt [1, 1, 1, 1, 1, 1, 1, 1] [1, 1, 1, 1, 1, 1, 1, 1] 8 = some 0
    ∧ distance_opt Simd.avx Real.sqrt [1, 1, 1, 1, 1, 1, 1, 1] [1, 1, 1, 1, 1, 1, 1, 1] 8 2
      = none := by
  refine ⟨?_, ?_⟩
  · simp [distance, for_loop, scalar_body]
  · simp [distance_opt, for_loop, spawn_body, thread_fctn, avx_body, _mm256_load_ps,
      _mm_load_ps, aligned_end, base_chunk, size, range_begin, range_end, wrap32]

/-- One worker on `u = [1 × 12]`, `v = [0 × 12]`: the result is `12` in every
variant. -/
theorem twelve_ones_one_worker (isa : Simd) :
    distance_opt isa Real.sqrt [1, 1, 1, 1, 1, 1, 1, 1, 1, 1, 1, 1]
      [0, 0, 0, 0, 0, 0, 0, 0, 0, 0, 0, 0] 12 1 = some 12 := by
  cases isa
  · simp [distance_opt, for_loop, spawn_body, join_body, thread_fctn, scalar_body, avx_body,
      _mm256_load_ps, _mm_load_ps, _mm256_sqrt_ps, _mm_sqrt_ps, _mm256_sub_ps, _mm_sub_ps,
      _mm256_mul_ps, _mm_mul_ps, _mm256_extractf128_ps, _mm256_castps256_ps128, _mm_add_ps,
      _mm_movehl_ps, _mm_shuffle_ps, _mm_add_ss, _mm_cvtss_f32, M128.lane, aligned_end,
      base_chunk, size, range_begin, range_end, wrap32]
    norm_num
  · simp [distance_opt, for_loop, spawn_body, join_body, thread_fctn, scalar_body, sse_body,
      _mm_load_ps, _mm_sqrt_ps, _mm_sub_ps, _mm_mul_ps, _mm_hadd_ps, _mm_cvtss_f32, aligned_end,
      base_chunk, size, range_begin, range_end, wrap32]
    norm_num
  · simp [distance_opt, for_loop, spawn_body, join_body, thread_fctn, scalar_body, sse_body,
      _mm_load_ps, _mm_sqrt_ps, _mm_sub_ps, _mm_mul_ps, _mm_add_ps, _mm_movehl_ps,
      _mm_shuffle_ps, _mm_add_ss, _mm_cvtss_f32, M128.lane, aligned_end,
      base_chunk, size, range_begin, range_end, wrap32]
    norm_num
  · simp [distance_opt, for_loop, spawn_body, join_body, thread_fctn, scalar_body, aligned_end,
      base_chunk, size, range_begin, range_end, wrap32]
    norm_num

/-- Eight workers on `u = [1 × 12]`, `v = [0 × 12]`, scalar variant: `8`. -/
theorem twelve_ones_eight_workers_scalar :
    distance_opt Simd.scalar Real.sqrt [1, 1, 1, 1, 1, 1, 1, 1, 1, 1, 1, 1]
      [0, 0, 0, 0, 0, 0, 0, 0, 0, 0, 0, 0] 12 8 = some 8 := by
  simp [distance_opt, for_loop, spawn_body, join_body, thread_fctn, scalar_body, aligned_end,
    base_chunk, size, range_begin, range_end, wrap32]
  norm_num

/-- Eight workers on `u = [1 × 12]`, `v = [0 × 12]`, SSE variant: worker 1 has
the range `[1, 2)` and its aligned load at `&u [1]` faults. -/
theorem twelve_ones_eight_workers_sse :
    distance_opt Simd.sse Real.sqrt [1, 1, 1, 1, 1, 1, 1, 1, 1, 1, 1, 1]
      [0, 0, 0, 0, 0, 0, 0, 0, 0, 0, 0, 0] 12 8 = none := by
  simp [distance_opt, for_loop, spawn_body, join_body, thread_fctn, scalar_body, sse_body,
    _mm_load_ps, _mm_sqrt_ps, _mm_sub_ps, _mm_mul_ps, _mm_add_ps, _mm_movehl_ps,
    _mm_shuffle_ps, _mm_add_ss, _mm_cvtss_f32, M128.lane, aligned_end,
    base_chunk, size, range_begin, range_end, wrap32]

/-- Eight workers on `u = [1 × 12]`, `v = [0 × 12]`, SSE3 variant: worker 1 has
the range `[1, 2)` and its aligned load at `&u [1]` faults. -/
theorem twelve_ones_eight_workers_sse3 :
    distance_opt Simd.sse3 Real.sqrt [1, 1, 1, 1, 1, 1, 1, 1, 1, 1, 1, 1]
      [0, 0, 0, 0, 0, 0, 0, 0, 0, 0, 0, 0] 12 8 = none := by
  simp [distance_opt, for_loop, spawn_body, join_body, thread_fctn, scalar_body, sse_body,
    _mm_load_ps, _mm_sqrt_ps, _mm_sub_ps, _mm_mul_ps, _mm_hadd_ps, _mm_cvtss_f32, aligned_end,
    base_chunk, size, range_begin, range_end, wrap32]

/-- Eight workers on `u = [1 × 12]`, `v = [0 × 12]`, AVX variant: worker 1 has the
range `[1, 2)` and loads from the misaligned `&u [1]` (and worker 5 would load
`u [5] .. u [12]`, past the last element of the buffers). -/
theorem twelve_ones_eight_workers_avx :
    distance_opt Simd.avx Real.sqrt [1, 1, 1, 1, 1, 1, 1, 1, 1, 1, 1, 1]
      [0, 0, 0, 0, 0, 0, 0, 0, 0, 0, 0, 0] 12 8 = none := by
  simp [distance_opt, for_loop, spawn_body, thread_fctn, avx_body, _mm256_load_ps,
    _mm_load_ps, _mm256_sqrt_ps, _mm_sqrt_ps, _mm256_sub_ps, _mm_sub_ps,
    _mm256_mul_ps, _mm_mul_ps, _mm256_extractf128_ps, _mm256_castps256_ps128, _mm_add_ps,
    _mm_movehl_ps, _mm_shuffle_ps, _mm_add_ss, _mm_cvtss_f32, M128.lane,
    aligned_end, base_chunk, size, range_begin, range_end, wrap32]

/-- C9 (failing input): for `u = [1 × 12]`, `v = [0 × 12]`, `n = 12`, one worker
gives `12` in every variant, while eight workers give `8` in the scalar variant
(`k = 1`, the last worker is not extended and the indices 8 .. 11 are in no
range) and no result in the three SIMD variants (`k = 1`, worker 1 has the range
`[1, 2)` and its vector load at `&u [1]` is misaligned); `8` does not agree with
`12` within the relative tolerance `1e-4`. -/
theorem one_worker_differs_from_eight :
    (∀ isa, distance_opt isa Real.sqrt [1, 1, 1, 1, 1, 1, 1, 1, 1, 1, 1, 1]
        [0, 0, 0, 0, 0, 0, 0, 0, 0, 0, 0, 0] 12 1 = some 12)
    ∧ distance_opt Simd.scalar Real.sqrt [1, 1, 1, 1, 1, 1, 1, 1, 1, 1, 1, 1]
        [0, 0, 0, 0, 0, 0, 0, 0, 0, 0, 0, 0] 12 8 = some 8
    ∧ distance_opt Simd.sse Real.sqrt [1, 1, 1, 1, 1, 1, 1, 1, 1, 1, 1, 1]
        [0, 0, 0, 0, 0, 0, 0, 0, 0, 0, 0, 0] 12 8 = none
    ∧ distance_opt Simd.sse3 Real.sqrt [1, 1, 1, 1, 1, 1, 1, 1, 1, 1, 1, 1]
        [0, 0, 0, 0, 0, 0, 0, 0, 0, 0, 0, 0] 12 8 = none
    ∧ distance_opt Simd.avx Real.sqrt [1, 1, 1, 1, 1, 1, 1, 1, 1, 1, 1, 1]
        [0, 0, 0, 0, 0, 0, 0, 0, 0, 0, 0, 0] 12 8 = none
    ∧ ¬ rel_close (1 / 10000) 12 8 := by
  refine ⟨twelve_ones_one_worker, twelve_ones_eight_workers_scalar,
    twelve_ones_eight_workers_sse, twelve_ones_eight_workers_sse3,
    twelve_ones_eight_workers_avx, ?_⟩
  simp [rel_close]
  norm_num

/-! ## The ranges of the planner -/

/-- The `nprocs` chunks of length `k = end / nprocs` fit below `end`. -/
theorem chunks_le (E p : Nat) : p * (E / p) ≤ E := Nat.mul_div_le E p

/-- The extension test of line 176 fails for every worker but the last. -/
theorem extension_test_false (E p i : Nat) (hi : i + 1 < p) : ¬ ((i + 2) * (E / p) > E) := by
  have h1 : (i + 2) * (E / p) ≤ p * (E / p) := Nat.mul_le_mul_right _ (by omega)
  have h2 := chunks_le E p
  omega

/-- The end of a range of a worker but the last is the begin of the next range. -/
theorem range_end_eq_next_begin (E p i : Nat) (hi : i + 1 < p) :
    range_end E (E / p) i = range_begin (E / p) (i + 1) := by
  have h := extension_test_false E p i hi
  rw [range_end_of_le E (E / p) i (by omega)]
  rfl

/-- The begin of a range does not exceed its end. -/
theorem range_begin_le_end (E p i : Nat) (hi : i < p) :
    range_begin (E / p) i ≤ range_end E (E / p) i := by
  unfold range_end range_begin
  split
  · have h1 : i * (E / p) ≤ p * (E / p) := Nat.mul_le_mul_right _ (by omega)
    have h2 := chunks_le E p
    omega
  · exact Nat.mul_le_mul_right _ (by omega)

/-- The end of the last range when the product `(p + 1) * k` of the test of the
last worker fits in an `int`: `end` when the last worker is extended, `p * k`
otherwise. -/
theorem last_range_end (E p : Nat) (hp : 1 ≤ p) (hov : (p + 1) * (E / p) ≤ 2147483647) :
    range_end E (E / p) (p - 1)
      = if E % p = 0 ∨ E / p > E % p then E else p * (E / p) := by
  have hdm := Nat.div_add_mod E p
  have e0 : p - 1 + 2 = p + 1 := by omega
  have e1 : (p - 1 + 2) * (E / p) = p * (E / p) + E / p := by
    rw [e0, Nat.add_mul, Nat.one_mul]
  have e2 : (p - 1 + 1) * (E / p) = p * (E / p) := by
    have : p - 1 + 1 = p := by omega
    rw [this]
  rw [range_end_eq E (E / p) (p - 1) (by rw [e0]; exact hov)]
  rw [e1, e2]
  by_cases hc : E % p = 0 ∨ E / p > E % p
  · rw [if_pos hc]
    split
    · rfl
    · omega
  · rw [if_neg hc]
    rw [if_neg (by omega)]

/-- The ranges of the workers before worker `i` end at or before its begin. -/
theorem range_end_le_later_begin (E p i j : Nat) (hij : i < j) (hj : j < p) :
    range_end E (E / p) i ≤ range_begin (E / p) j := by
  rw [range_end_eq_next_begin E p i (by omega)]
  unfold range_begin
  exact Nat.mul_le_mul_right _ (by omega)

/-- The union of the `p` worker ranges is the interval from `0` to the end of
the last range. -/
theorem mem_worker_range_iff (E p x : Nat) (hp : 1 ≤ p) :
    (∃ i, i < p ∧ in_range (range_begin (E / p) i, range_end E (E / p) i) x)
      ↔ x < range_end E (E / p) (p - 1) := by
  constructor
  · rintro ⟨i, hi, hin⟩
    have h2 : x < range_end E (E / p) i := ((in_range_iff _ _ _).mp hin).2
    by_cases hl : i = p - 1
    · subst hl
      exact h2
    · have h3 := range_end_le_later_begin E p i (p - 1) (by omega) (by omega)
      have h4 := range_begin_le_end E p (p - 1) (by omega)
      omega
  · intro hx
    by_cases hb : range_begin (E / p) (p - 1) ≤ x
    · exact ⟨p - 1, by omega, (in_range_iff _ _ _).mpr ⟨hb, hx⟩⟩
    · have hb' : x < (p - 1) * (E / p) := by
        unfold range_begin at hb
        omega
      have hk : 0 < E / p := by
        rcases Nat.eq_zero_or_pos (E / p) with h0 | h0
        · rw [h0] at hb'
          simp at hb'
        · exact h0
      have hq : x / (E / p) < p - 1 := (Nat.div_lt_iff_lt_mul hk).mpr hb'
      refine ⟨x / (E / p), by omega, (in_range_iff _ _ _).mpr ⟨?_, ?_⟩⟩
      · unfold range_begin
        exact Nat.div_mul_le_self x (E / p)
      · rw [range_end_eq_next_begin E p _ (by omega)]
        unfold range_begin
        have h1 := Nat.div_add_mod x (E / p)
        have h2 := Nat.mod_lt x hk
        rw [Nat.add_mul, Nat.one_mul, Nat.mul_comm]
        omega

/-- C12: for every variant, every `n`, every `p ≥ 1` and every worker index
`i < p`, the range of worker `i` satisfies
`0 ≤ begin_i ≤ end_i ≤ aligned_end ≤ n`. -/
theorem worker_range_bounds (isa : Simd) (n p i : Nat) (_hp : 1 ≤ p) (hi : i < p) :
    0 ≤ range_begin (base_chunk (size isa) n p) i
    ∧ range_begin (base_chunk (size isa) n p) i
        ≤ range_end (aligned_end (size isa) n) (base_chunk (size isa) n p) i
    ∧ range_end (aligned_end (size isa) n) (base_chunk (size isa) n p) i
        ≤ aligned_end (size isa) n
    ∧ aligned_end (size isa) n ≤ n :=
  ⟨Nat.zero_le _, range_begin_le_end _ p i hi, range_end_le _ p i hi, aligned_end_le _ _⟩

/-- Witness of C12: AVX variant, `n = 100`, seven workers, worker 6. -/
theorem worker_range_bounds_witness :
    1 ≤ 7 ∧ 6 < 7
    ∧ 0 ≤ range_begin (base_chunk (size Simd.avx) 100 7) 6
    ∧ range_begin (base_chunk (size Simd.avx) 100 7) 6
        ≤ range_end (aligned_end (size Simd.avx) 100) (base_chunk (size Simd.avx) 100 7) 6
    ∧ range_end (aligned_end (size Simd.avx) 100) (base_chunk (size Simd.avx) 100 7) 6
        ≤ aligned_end (size Simd.avx) 100
    ∧ aligned_end (size Simd.avx) 100 ≤ 100 :=
  ⟨by decide, by decide, worker_range_bounds Simd.avx 100 7 6 (by decide) (by decide)⟩

/-- C13: for every variant, every `n` and every `p ≥ 1`, the extension test
`(i + 2) * k > end` is false for every worker `i < p - 1`, whose range is exactly
`[i * k, (i + 1) * k)` with `k = end / p`; a worker `i < p` for which the test
holds is the last one. -/
theorem remainder_to_last_worker_only (isa : Simd) (n p : Nat) (_hp : 1 ≤ p) :
    (∀ i, i < p - 1 →
      ¬ ((i + 2) * base_chunk (size isa) n p > aligned_end (size isa) n)
      ∧ range_begin (base_chunk (size isa) n p) i = i * (aligned_end (size isa) n / p)
      ∧ range_end (aligned_end (size isa) n) (base_chunk (size isa) n p) i
          = (i + 1) * (aligned_end (size isa) n / p))
    ∧ (∀ i, i < p →
        (i + 2) * base_chunk (size isa) n p > aligned_end (size isa) n → i = p - 1) := by
  refine ⟨?_, ?_⟩
  · intro i hi
    have ht := extension_test_false (aligned_end (size isa) n) p i (by omega)
    refine ⟨ht, rfl, ?_⟩
    exact range_end_eq_next_begin (aligned_end (size isa) n) p i (by omega)
  · intro i hi ht
    by_contra hne
    exact extension_test_false (aligned_end (size isa) n) p i (by omega) ht

/-- Witness of C13: SSE variant, `n = 23`, three workers: `end = 20`, `k = 6`, the
ranges of workers 0 and 1 are `[0, 6)` and `[6, 12)`. -/
theorem remainder_to_last_worker_only_witness :
    1 ≤ 3
    ∧ (∀ i, i < 3 - 1 →
      ¬ ((i + 2) * base_chunk (size Simd.sse) 23 3 > aligned_end (size Simd.sse) 23)
      ∧ range_begin (base_chunk (size Simd.sse) 23 3) i
          = i * (aligned_end (size Simd.sse) 23 / 3)
      ∧ range_end (aligned_end (size Simd.sse) 23) (base_chunk (size Simd.sse) 23 3) i
          = (i + 1) * (aligned_end (size Simd.sse) 23 / 3)) :=
  ⟨by decide, (remainder_to_last_worker_only Simd.sse 23 3 (by decide)).1⟩

/-- The union of the worker ranges of `distance_opt` is the interval from `0` to
the end of the last range. -/
theorem mem_worker_ranges_iff (w n p x : Nat) (hp : 1 ≤ p) :
    (∃ r ∈ worker_ranges w n p, in_range r x)
      ↔ x < range_end (aligned_end w n) (aligned_end w n / p) (p - 1) := by
  rw [← mem_worker_range_iff (aligned_end w n) p x hp]
  simp only [worker_ranges, base_chunk, List.mem_map, List.mem_range]
  constructor
  · rintro ⟨r, ⟨i, hi, rfl⟩, hr⟩
    exact ⟨i, hi, hr⟩
  · rintro ⟨i, hi, hr⟩
    exact ⟨_, ⟨i, hi, rfl⟩, hr⟩

/-- For `n ≤ 2^30 - 1` no product of the extension test leaves the range of
`int`. -/
theorem no_overflow_of_le (w n p : Nat) (hn : n ≤ 2 ^ 30 - 1) :
    (p + 1) * base_chunk w n p ≤ 2 ^ 31 - 1 := by
  have h1 : (2 : Nat) ^ 30 - 1 = 1073741823 := by norm_num
  have h2 : (2 : Nat) ^ 31 - 1 = 2147483647 := by norm_num
  have hE := aligned_end_le w n
  have hpk := chunks_le (aligned_end w n) p
  have h4 : aligned_end w n / p ≤ aligned_end w n := Nat.div_le_self _ _
  have h5 : (p + 1) * (aligned_end w n / p)
      = p * (aligned_end w n / p) + aligned_end w n / p := by
    rw [Nat.add_mul, Nat.one_mul]
  unfold base_chunk
  omega

/-- C16 (amended): for every variant, every `n` and every `p ≥ 1` for which the
largest product of the extension test, `(p + 1) * k`, does not leave the range
of `int` (it is at most `2^31 - 1`), with `E = n - n mod w` and `k = E / p`: the
worker ranges start at `0`, each range but the last ends where the next one
begins, and the ranges are pairwise disjoint; their union is `[0, E)` if and
only if `E mod p = 0` or `E / p > E mod p`; otherwise the last range ends at
`p * k < E`, the union is `[0, p * k)`, and the indices of `[p * k, E)` lie in
no worker range and, being below `E`, not in the tail. -/
theorem worker_ranges_union (isa : Simd) (n p : Nat) (hp : 1 ≤ p)
    (hov : (p + 1) * base_chunk (size isa) n p ≤ 2 ^ 31 - 1) :
    range_begin (base_chunk (size isa) n p) 0 = 0
    ∧ (∀ i, i + 1 < p →
        range_end (aligned_end (size isa) n) (base_chunk (size isa) n p) i
          = range_begin (base_chunk (size isa) n p) (i + 1))
    ∧ (∀ i j x, i < j → j < p →
        ¬ (in_range (range_begin (base_chunk (size isa) n p) i,
              range_end (aligned_end (size isa) n) (base_chunk (size isa) n p) i) x
          ∧ in_range (range_begin (base_chunk (size isa) n p) j,
              range_end (aligned_end (size isa) n) (base_chunk (size isa) n p) j) x))
    ∧ ((∀ x, (∃ r ∈ worker_ranges (size isa) n p, in_range r x)
          ↔ x < aligned_end (size isa) n)
        ↔ (aligned_end (size isa) n % p = 0
            ∨ aligned_end (size isa) n / p > aligned_end (size isa) n % p))
    ∧ (¬ (aligned_end (size isa) n % p = 0
            ∨ aligned_end (size isa) n / p > aligned_end (size isa) n % p) →
        range_end (aligned_end (size isa) n) (base_chunk (size isa) n p) (p - 1)
          = p * base_chunk (size isa) n p
        ∧ p * base_chunk (size isa) n p < aligned_end (size isa) n
        ∧ (∀ x, (∃ r ∈ worker_ranges (size isa) n p, in_range r x)
            ↔ x < p * base_chunk (size isa) n p)
        ∧ (∀ x, p * base_chunk (size isa) n p ≤ x → x < aligned_end (size isa) n →
            (¬ ∃ r ∈ worker_ranges (size isa) n p, in_range r x)
            ∧ ¬ in_range (tail_range (size isa) n) x)) := by
  have hU := fun x => mem_worker_ranges_iff (size isa) n p x hp
  have hM : (2 : Nat) ^ 31 - 1 = 2147483647 := by norm_num
  have hL := last_range_end (aligned_end (size isa) n) p hp (by rw [← hM]; exact hov)
  have hdm := Nat.div_add_mod (aligned_end (size isa) n) p
  refine ⟨by simp [range_begin], ?_, ?_, ?_, ?_⟩
  · intro i hi
    exact range_end_eq_next_begin _ p i hi
  · rintro i j x hij hj ⟨hi1, hj1⟩
    have h1 := ((in_range_iff _ _ _).mp hi1).2
    have h2 := ((in_range_iff _ _ _).mp hj1).1
    have h3 := range_end_le_later_begin (aligned_end (size isa) n) p i j hij hj
    simp only [base_chunk] at h1 h2
    omega
  · constructor
    · intro h
      by_contra hc
      rw [if_neg hc] at hL
      have h1 := (h (p * (aligned_end (size isa) n / p))).mpr (by omega)
      rw [hU, hL] at h1
      omega
    · intro hc x
      rw [hU, hL, if_pos hc]
  · intro hc
    rw [if_neg hc] at hL
    have hlt : p * (aligned_end (size isa) n / p) < aligned_end (size isa) n := by omega
    refine ⟨hL, hlt, ?_, ?_⟩
    · intro x
      rw [hU, hL]
      rfl
    · intro x hx1 hx2
      refine ⟨?_, ?_⟩
      · rw [hU, hL]
        simp only [base_chunk] at hx1
        omega
      · rw [tail_range, in_range_iff]
        omega

/-- Witness of C16 (amended): scalar variant, `n = 5`, four workers: `E = 5`,
`k = 1`, `E mod p = 1`, so the last worker is not extended and the union of the
ranges is `[0, 4)`. -/
theorem worker_ranges_union_witness :
    1 ≤ 4
    ∧ (4 + 1) * base_chunk (size Simd.scalar) 5 4 ≤ 2 ^ 31 - 1
    ∧ ¬ (aligned_end (size Simd.scalar) 5 % 4 = 0
          ∨ aligned_end (size Simd.scalar) 5 / 4 > aligned_end (size Simd.scalar) 5 % 4)
    ∧ (∀ x, (∃ r ∈ worker_ranges (size Simd.scalar) 5 4, in_range r x)
          ↔ x < 4 * base_chunk (size Simd.scalar) 5 4) :=
  ⟨by decide, by decide, by decide,
    ((worker_ranges_union Simd.scalar 5 4 (by decide) (by decide)).2.2.2.2 (by decide)).2.2.1⟩

/-- C16 (counterexample): in the scalar variant with `n = 2147483640` and seven
workers, `E = n`, `k = 306783377` and `E mod p = 1 < k`, but the product
`8 * k = 2454267016` of the test of the last worker does not fit in an `int`:
the 32-bit product is negative, the last worker is not extended, its range
ends at `7 * k = 2147483639`, and the union of the worker ranges is not
`[0, E)`: index `2147483639` is in no range. -/
theorem worker_ranges_union_overflow :
    (aligned_end (size Simd.scalar) 2147483640 % 7 = 0
      ∨ aligned_end (size Simd.scalar) 2147483640 / 7
          > aligned_end (size Simd.scalar) 2147483640 % 7)
    ∧ range_end (aligned_end (size Simd.scalar) 2147483640)
        (base_chunk (size Simd.scalar) 2147483640 7) 6 = 2147483639
    ∧ ¬ (∀ x, (∃ r ∈ worker_ranges (size Simd.scalar) 2147483640 7, in_range r x)
          ↔ x < aligned_end (size Simd.scalar) 2147483640) := by
  have hE : aligned_end (size Simd.scalar) 2147483640 = 2147483640 := by
    simp [aligned_end, size]
  have hR : range_end 2147483640 (2147483640 / 7) 6 = 2147483639 := by
    simp [range_end, wrap32]
  refine ⟨?_, ?_, ?_⟩
  · rw [hE]
    right
    norm_num
  · rw [base_chunk, hE]
    exact hR
  · intro h
    have h1 := (h 2147483639).mpr (by rw [hE]; norm_num)
    rw [mem_worker_ranges_iff _ _ _ _ (by norm_num), hE] at h1
    have h2 : (7 : Nat) - 1 = 6 := rfl
    rw [h2, hR] at h1
    exact Nat.lt_irrefl _ h1

/-! ## The horizontal additions -/

/-- The AVX loop body adds lane 0 of `avx_hadd` of the squared differences. -/
theorem avx_body_eq_hadd {α : Type} [Add α] [Sub α] [Mul α]
    (sqrtf : α → α) (copy : thread_args_t α) (i : Nat) (sum : α) :
    avx_body sqrtf copy i sum
      = (_mm256_load_ps copy.u i).bind fun y1 =>
          (_mm256_load_ps copy.v i).bind fun y2 =>
            some (sum + _mm_cvtss_f32 (avx_hadd
              (_mm256_mul_ps
                (_mm256_sub_ps (_mm256_sqrt_ps sqrtf y1) (_mm256_sqrt_ps sqrtf y2))
                (_mm256_sub_ps (_mm256_sqrt_ps sqrtf y1) (_mm256_sqrt_ps sqrtf y2))))) := by
  rfl

/-- The SSE loop body adds lane 0 of `sse3_hadd` or `sse_hadd` of the squared
differences. -/
theorem sse_body_eq_hadd {α : Type} [Add α] [Sub α] [Mul α]
    (sse3 : Bool) (sqrtf : α → α) (copy : thread_args_t α) (i : Nat) (sum : α) :
    sse_body sse3 sqrtf copy i sum
      = (_mm_load_ps copy.u i).bind fun x1 =>
          (_mm_load_ps copy.v i).bind fun x2 =>
            some (sum + _mm_cvtss_f32 ((if sse3 then sse3_hadd else sse_hadd)
              (_mm_mul_ps
                (_mm_sub_ps (_mm_sqrt_ps sqrtf x1) (_mm_sqrt_ps sqrtf x2))
                (_mm_sub_ps (_mm_sqrt_ps sqrtf x1) (_mm_sqrt_ps sqrtf x2))))) := by
  cases sse3 <;> rfl

/-- Lane 0 of the AVX horizontal addition. -/
theorem avx_hadd_lane0 {α : Type} [Add α] (y : M256 α) :
    _mm_cvtss_f32 (avx_hadd y)
      = ((y.lo.x0 + y.hi.x0) + (y.lo.x2 + y.hi.x2))
        + ((y.lo.x1 + y.hi.x1) + (y.lo.x3 + y.hi.x3)) := by
  rfl

/-- Lane 0 of the SSE3 horizontal addition. -/
theorem sse3_hadd_lane0 {α : Type} [Add α] (x : M128 α) :
    _mm_cvtss_f32 (sse3_hadd x) = (x.x0 + x.x1) + (x.x2 + x.x3) := by
  rfl

/-- Lane 0 of the plain SSE horizontal addition. -/
theorem sse_hadd_lane0 {α : Type} [Add α] (x : M128 α) :
    _mm_cvtss_f32 (sse_hadd x) = (x.x0 + x.x2) + (x.x1 + x.x3) := by
  rfl

/-- C15: in each SIMD variant of `thread_fctn` the loop body adds to `sum` lane 0
of the horizontal addition of the register of squared differences, and that
lane is `((x0+x4)+(x2+x6)) + ((x1+x5)+(x3+x7))` for AVX, `(x0+x1)+(x2+x3)` for
SSE3 and `(x0+x2)+(x1+x3)` for plain SSE, whatever the carrier; over the reals
each is the sum of all lanes. -/
theorem horizontal_reduction_lane0 :
    (∀ (α : Type) [Add α] (y : M256 α),
      _mm_cvtss_f32 (avx_hadd y)
        = ((y.lo.x0 + y.hi.x0) + (y.lo.x2 + y.hi.x2))
          + ((y.lo.x1 + y.hi.x1) + (y.lo.x3 + y.hi.x3)))
    ∧ (∀ (α : Type) [Add α] (x : M128 α),
      _mm_cvtss_f32 (sse3_hadd x) = (x.x0 + x.x1) + (x.x2 + x.x3))
    ∧ (∀ (α : Type) [Add α] (x : M128 α),
      _mm_cvtss_f32 (sse_hadd x) = (x.x0 + x.x2) + (x.x1 + x.x3))
    ∧ (∀ y : M256 ℝ,
      _mm_cvtss_f32 (avx_hadd y)
        = y.lo.x0 + y.lo.x1 + y.lo.x2 + y.lo.x3 + y.hi.x0 + y.hi.x1 + y.hi.x2 + y.hi.x3)
    ∧ (∀ x : M128 ℝ, _mm_cvtss_f32 (sse3_hadd x) = x.x0 + x.x1 + x.x2 + x.x3)
    ∧ (∀ x : M128 ℝ, _mm_cvtss_f32 (sse_hadd x) = x.x0 + x.x1 + x.x2 + x.x3)
    ∧ (∀ (α : Type) [Add α] [Sub α] [Mul α] (sqrtf : α → α) (copy : thread_args_t α)
        (i : Nat) (sum : α),
      avx_body sqrtf copy i sum
        = (_mm256_load_ps copy.u i).bind fun y1 =>
            (_mm256_load_ps copy.v i).bind fun y2 =>
              some (sum + _mm_cvtss_f32 (avx_hadd
                (_mm256_mul_ps
                  (_mm256_sub_ps (_mm256_sqrt_ps sqrtf y1) (_mm256_sqrt_ps sqrtf y2))
                  (_mm256_sub_ps (_mm256_sqrt_ps sqrtf y1) (_mm256_sqrt_ps sqrtf y2))))))
    ∧ (∀ (α : Type) [Add α] [Sub α] [Mul α] (sse3 : Bool) (sqrtf : α → α)
        (copy : thread_args_t α) (i : Nat) (sum : α),
      sse_body sse3 sqrtf copy i sum
        = (_mm_load_ps copy.u i).bind fun x1 =>
            (_mm_load_ps copy.v i).bind fun x2 =>
              some (sum + _mm_cvtss_f32 ((if sse3 then sse3_hadd else sse_hadd)
                (_mm_mul_ps
                  (_mm_sub_ps (_mm_sqrt_ps sqrtf x1) (_mm_sqrt_ps sqrtf x2))
                  (_mm_sub_ps (_mm_sqrt_ps sqrtf x1) (_mm_sqrt_ps sqrtf x2)))))) := by
  refine ⟨fun α _ y => avx_hadd_lane0 y, fun α _ x => sse3_hadd_lane0 x,
    fun α _ x => sse_hadd_lane0 x, ?_, ?_, ?_,
    fun α _ _ _ sqrtf copy i sum => avx_body_eq_hadd sqrtf copy i sum,
    fun α _ _ _ sse3 sqrtf copy i sum => sse_body_eq_hadd sse3 sqrtf copy i sum⟩
  · intro y
    rw [avx_hadd_lane0]
    ring
  · intro x
    rw [sse3_hadd_lane0]
    ring
  · intro x
    rw [sse_hadd_lane0]
    ring

/-! ## The partial sum of a worker -/

/-- A four-lane load at an aligned index that stays inside the buffer. -/
theorem load_ps_eq {α : Type} [Zero α] (p : List α) (i : Nat) (hal : i % 4 = 0)
    (h : i + 4 ≤ p.length) :
    _mm_load_ps p i
      = some ⟨p.getD i 0, p.getD (i + 1) 0, p.getD (i + 2) 0, p.getD (i + 3) 0⟩ := by
  have h0 : i < p.length := by omega
  have h1 : i + 1 < p.length := by omega
  have h2 : i + 2 < p.length := by omega
  have h3 : i + 3 < p.length := by omega
  simp [_mm_load_ps, hal, List.getD_eq_getElem?_getD, List.getElem?_eq_getElem, h0, h1, h2, h3]

/-- An eight-lane load at an aligned index that stays inside the buffer. -/
theorem load256_ps_eq {α : Type} [Zero α] (p : List α) (i : Nat) (hal : i % 8 = 0)
    (h : i + 8 ≤ p.length) :
    _mm256_load_ps p i
      = some ⟨⟨p.getD i 0, p.getD (i + 1) 0, p.getD (i + 2) 0, p.getD (i + 3) 0⟩,
          ⟨p.getD (i + 4) 0, p.getD (i + 5) 0, p.getD (i + 6) 0, p.getD (i + 7) 0⟩⟩ := by
  simp [_mm256_load_ps, hal, load_ps_eq p i (by omega) (by omega),
    load_ps_eq p (i + 4) (by omega) (by omega)]

/-- One scalar iteration inside the buffers adds the term of its index. -/
theorem scalar_body_block (u v : List ℝ) (i : Nat) (s : ℝ)
    (hu : i + 1 ≤ u.length) (hv : i + 1 ≤ v.length) :
    scalar_body Real.sqrt u v i s
      = some (s + Finset.sum (Finset.Ico i (i + 1)) (term_at Real.sqrt u v)) := by
  have h0 : i < u.length := by omega
  have h1 : i < v.length := by omega
  simp [scalar_body, term_at, sq_diff, List.getD_eq_getElem?_getD, List.getElem?_eq_getElem,
    h0, h1]

/-- One SSE iteration at an aligned index inside the buffers adds the terms of
its four indices. -/
theorem sse_body_block (sse3 : Bool) (copy : thread_args_t ℝ) (i : Nat) (s : ℝ)
    (hal : i % 4 = 0) (hu : i + 4 ≤ copy.u.length) (hv : i + 4 ≤ copy.v.length) :
    sse_body sse3 Real.sqrt copy i s
      = some (s + Finset.sum (Finset.Ico i (i + 4)) (term_at Real.sqrt copy.u copy.v)) := by
  rw [sse_body_eq_hadd, load_ps_eq _ i hal hu, load_ps_eq _ i hal hv]
  rw [Finset.sum_Ico_eq_sum_range]
  cases sse3
  · simp [sse_hadd_lane0, _mm_mul_ps, _mm_sub_ps, _mm_sqrt_ps, Finset.sum_range_succ, term_at,
      sq_diff]
    ring
  · simp [sse3_hadd_lane0, _mm_mul_ps, _mm_sub_ps, _mm_sqrt_ps, Finset.sum_range_succ, term_at,
      sq_diff]
    ring

/-- One AVX iteration at an aligned index inside the buffers adds the terms of
its eight indices. -/
theorem avx_body_block (copy : thread_args_t ℝ) (i : Nat) (s : ℝ)
    (hal : i % 8 = 0) (hu : i + 8 ≤ copy.u.length) (hv : i + 8 ≤ copy.v.length) :
    avx_body Real.sqrt copy i s
      = some (s + Finset.sum (Finset.Ico i (i + 8)) (term_at Real.sqrt copy.u copy.v)) := by
  rw [avx_body_eq_hadd, load256_ps_eq _ i hal hu, load256_ps_eq _ i hal hv]
  rw [Finset.sum_Ico_eq_sum_range]
  simp [avx_hadd_lane0, _mm256_mul_ps, _mm256_sub_ps, _mm256_sqrt_ps, _mm_mul_ps, _mm_sub_ps,
    _mm_sqrt_ps, Finset.sum_range_succ, term_at, sq_diff]
  ring

/-- A loop of stride `w` whose iterations at multiples of `w` add the terms of
their block of `w` indices adds, from a multiple of `w` and over a range whose
length is a multiple of `w`, the terms of the whole range. -/
theorem strided_loop_sum (e w : Nat) (hw : 0 < w) (body : Nat → ℝ → Option ℝ) (f : Nat → ℝ)
    (hbody : ∀ j s, j % w = 0 → j + w ≤ e →
      body j s = some (s + Finset.sum (Finset.Ico j (j + w)) f)) :
    ∀ (m i : Nat) (s : ℝ), i % w = 0 → e = i + w * m →
      for_loop e w hw body i s = some (s + Finset.sum (Finset.Ico i e) f) := by
  intro m
  induction m with
  | zero =>
    intro i s _ he
    have hie : e = i := by simpa using he
    subst hie
    rw [for_loop_done _ _ _ _ _ _ (Nat.le_refl _)]
    simp
  | succ m ih =>
    intro i s hal he
    have hwm : e = (i + w) + w * m := by rw [he, Nat.mul_succ]; omega
    have hle : i + w ≤ e := by rw [hwm]; omega
    have hal' : (i + w) % w = 0 := by rw [Nat.add_mod_right]; exact hal
    rw [for_loop_step _ _ _ _ _ _ _ (by omega) (hbody i s hal hle), ih (i + w) _ hal' hwm]
    rw [add_assoc, Finset.sum_Ico_consecutive f (by omega) hle]

/-- Over the reals, a worker whose range `[b, e)` lies inside the buffers, begins
at a multiple of the vector width and has a length that is a multiple of the
vector width stores the sum of the terms of the indices of its range. -/
theorem thread_fctn_sum (isa : Simd) (u v : List ℝ) (b e : Nat) (hbe : b ≤ e)
    (hu : e ≤ u.length) (hv : e ≤ v.length) (hal : size isa ∣ b)
    (hdiv : size isa ∣ e - b) :
    thread_fctn isa Real.sqrt { u := u, v := v, begin := b, end_ := e, sum := none }
      = some { u := u, v := v, begin := b, end_ := e,
               sum := some (Finset.sum (Finset.Ico b e) (term_at Real.sqrt u v)) } := by
  obtain ⟨m, hm⟩ := hdiv
  have hb := Nat.mod_eq_zero_of_dvd hal
  cases isa
  · have he : e = b + 8 * m := by simp only [size] at hm; omega
    have key := strided_loop_sum e 8 (by decide)
      (avx_body Real.sqrt { u := u, v := v, begin := b, end_ := e, sum := none })
      (term_at Real.sqrt u v)
      (fun j s hj hje =>
        avx_body_block { u := u, v := v, begin := b, end_ := e, sum := none } j s hj
          (Nat.le_trans hje hu) (Nat.le_trans hje hv)) m b 0 hb he
    simp only [thread_fctn, key]
    simp
  · have he : e = b + 4 * m := by simp only [size] at hm; omega
    have key := strided_loop_sum e 4 (by decide)
      (sse_body true Real.sqrt { u := u, v := v, begin := b, end_ := e, sum := none })
      (term_at Real.sqrt u v)
      (fun j s hj hje =>
        sse_body_block true { u := u, v := v, begin := b, end_ := e, sum := none } j s hj
          (Nat.le_trans hje hu) (Nat.le_trans hje hv)) m b 0 hb he
    simp only [thread_fctn, key]
    simp
  · have he : e = b + 4 * m := by simp only [size] at hm; omega
    have key := strided_loop_sum e 4 (by decide)
      (sse_body false Real.sqrt { u := u, v := v, begin := b, end_ := e, sum := none })
      (term_at Real.sqrt u v)
      (fun j s hj hje =>
        sse_body_block false { u := u, v := v, begin := b, end_ := e, sum := none } j s hj
          (Nat.le_trans hje hu) (Nat.le_trans hje hv)) m b 0 hb he
    simp only [thread_fctn, key]
    simp
  · have he : e = b + 1 * m := by simp only [size] at hm; omega
    have key := strided_loop_sum e 1 (by decide) (scalar_body Real.sqrt u v)
      (term_at Real.sqrt u v)
      (fun j s _ hje =>
        scalar_body_block u v j s (Nat.le_trans hje hu) (Nat.le_trans hje hv))
      m b 0 (Nat.mod_one b) he
    simp only [thread_fctn, key]
    simp

/-- C11 (amended): over the reals, for buffers of length `n` that start at an
address aligned for the vector loads of the variant, and a range `[begin, end)`
with `begin ≤ end ≤ n` whose begin and length are multiples of the vector width
of the variant, `thread_fctn` stores in `sum` the sum over
`i = begin .. end - 1` of `(√u[i] - √v[i])²`; and on an empty range
(`begin = end`) it stores `0` whatever the buffers are, even empty ones, so that
no iteration is executed. -/
theorem thread_fctn_range_sum (isa : Simd) (u v : List ℝ) (n b e : Nat)
    (hu : u.length = n) (hv : v.length = n) (hbe : b ≤ e) (hen : e ≤ n)
    (hal : size isa ∣ b) (hdiv : size isa ∣ e - b) :
    thread_fctn isa Real.sqrt { u := u, v := v, begin := b, end_ := e, sum := none }
      = some { u := u, v := v, begin := b, end_ := e,
               sum := some (Finset.sum (Finset.Ico b e)
                 (fun i => (Real.sqrt (u.getD i 0) - Real.sqrt (v.getD i 0)) ^ 2)) }
    ∧ (∀ (us vs : List ℝ) (x : Nat),
        thread_fctn isa Real.sqrt { u := us, v := vs, begin := x, end_ := x, sum := none }
          = some { u := us, v := vs, begin := x, end_ := x, sum := some 0 }) := by
  refine ⟨?_, fun us vs x => thread_fctn_empty isa Real.sqrt _ (Nat.le_refl _)⟩
  rw [thread_fctn_sum isa u v b e hbe (by omega) (by omega) hal hdiv]
  have : term_at Real.sqrt u v
      = fun i => (Real.sqrt (u.getD i 0) - Real.sqrt (v.getD i 0)) ^ 2 := by
    funext i
    simp [term_at, sq_diff, sq]
  rw [this]

/-- Witness of C11 (amended): AVX variant, range `[0, 8)` of the buffers `[4 × 8]`
and `[1 × 8]`. -/
theorem thread_fctn_range_sum_witness :
    ([4, 4, 4, 4, 4, 4, 4, 4] : List ℝ).length = 8
    ∧ ([1, 1, 1, 1, 1, 1, 1, 1] : List ℝ).length = 8
    ∧ 0 ≤ 8 ∧ 8 ≤ 8 ∧ size Simd.avx ∣ 0 ∧ size Simd.avx ∣ 8 - 0
    ∧ thread_fctn Simd.avx Real.sqrt
        { u := [4, 4, 4, 4, 4, 4, 4, 4], v := [1, 1, 1, 1, 1, 1, 1, 1],
          begin := 0, end_ := 8, sum := none }
      = some { u := [4, 4, 4, 4, 4, 4, 4, 4], v := [1, 1, 1, 1, 1, 1, 1, 1],
               begin := 0, end_ := 8,
               sum := some (Finset.sum (Finset.Ico 0 8)
                 (fun i => (Real.sqrt (([4, 4, 4, 4, 4, 4, 4, 4] : List ℝ).getD i 0)
                   - Real.sqrt (([1, 1, 1, 1, 1, 1, 1, 1] : List ℝ).getD i 0)) ^ 2)) } :=
  ⟨rfl, rfl, by decide, by decide, by decide, by decide,
    (thread_fctn_range_sum Simd.avx [4, 4, 4, 4, 4, 4, 4, 4] [1, 1, 1, 1, 1, 1, 1, 1] 8 0 8
      rfl rfl (by decide) (by decide) (by decide) (by decide)).1⟩

/-- C11 (counterexample): in the SSE variant, on buffers of length 8, the range
`[1, 5)` satisfies `0 ≤ 1 ≤ 5 ≤ 8` and has length 4, a multiple of the vector
width, but the first iteration issues the aligned load `_mm_load_ps (&u [1])`
at an address that is not 16-byte aligned: the worker faults and stores
nothing. -/
theorem thread_fctn_misaligned_begin :
    ([1, 1, 1, 1, 1, 1, 1, 1] : List ℝ).length = 8
    ∧ ([0, 0, 0, 0, 0, 0, 0, 0] : List ℝ).length = 8
    ∧ 1 ≤ 5 ∧ 5 ≤ 8 ∧ size Simd.sse ∣ 5 - 1
    ∧ thread_fctn Simd.sse Real.sqrt
        { u := [1, 1, 1, 1, 1, 1, 1, 1], v := [0, 0, 0, 0, 0, 0, 0, 0],
          begin := 1, end_ := 5, sum := none }
      = none := by
  refine ⟨rfl, rfl, by decide, by decide, by decide, ?_⟩
  simp [thread_fctn, for_loop, sse_body, _mm_load_ps]

/-! ## The scalar variant over the reals -/

/-- Adding the partial sums in worker order from `0` gives their sum. -/
theorem foldl_parts_eq_sum (g : Nat → ℝ) (p : Nat) :
    (List.range' 0 p).foldl (fun acc j => acc + g j) 0 = Finset.sum (Finset.range p) g := by
  rw [← List.range_eq_range']
  induction p with
  | zero => simp
  | succ p ih => rw [List.range_succ, List.foldl_append, ih, Finset.sum_range_succ]; rfl

/-- The sums over `m` consecutive chunks of length `k` add up to the sum over
`[0, m * k)`. -/
theorem sum_chunks (f : Nat → ℝ) (k m : Nat) :
    Finset.sum (Finset.range m) (fun j => Finset.sum (Finset.Ico (j * k) ((j + 1) * k)) f)
      = Finset.sum (Finset.Ico 0 (m * k)) f := by
  induction m with
  | zero => simp
  | succ m ih =>
    rw [Finset.sum_range_succ, ih,
      Finset.sum_Ico_consecutive f (Nat.zero_le _) (Nat.mul_le_mul_right k (Nat.le_succ m))]

/-- The sums over the `p` worker ranges add up to the sum over `[0, end_{p-1})`. -/
theorem sum_worker_ranges (f : Nat → ℝ) (E p : Nat) (hp : 1 ≤ p) :
    Finset.sum (Finset.range p)
        (fun j => Finset.sum (Finset.Ico (range_begin (E / p) j) (range_end E (E / p) j)) f)
      = Finset.sum (Finset.Ico 0 (range_end E (E / p) (p - 1))) f := by
  obtain ⟨q, rfl⟩ : ∃ q, p = q + 1 := ⟨p - 1, by omega⟩
  rw [Finset.sum_range_succ]
  have h1 : Finset.sum (Finset.range q)
        (fun j => Finset.sum
          (Finset.Ico (range_begin (E / (q + 1)) j) (range_end E (E / (q + 1)) j)) f)
      = Finset.sum (Finset.range q)
        (fun j => Finset.sum (Finset.Ico (j * (E / (q + 1))) ((j + 1) * (E / (q + 1)))) f) := by
    apply Finset.sum_congr rfl
    intro j hj
    rw [Finset.mem_range] at hj
    rw [range_end_eq_next_begin E (q + 1) j (by omega)]
    rfl
  rw [h1, sum_chunks, Nat.add_sub_cancel]
  exact Finset.sum_Ico_consecutive f (Nat.zero_le _) (range_begin_le_end E (q + 1) q (by omega))

/-- Over the reals `distance` on buffers of length `n` is the sum of the `n`
terms. -/
theorem distance_eq_sum (u v : List ℝ) (n : Nat) (hu : u.length = n) (hv : v.length = n) :
    distance Real.sqrt u v n = some (Finset.sum (Finset.range n) (term_at Real.sqrt u v)) := by
  unfold distance
  simp only []
  rw [strided_loop_sum n 1 (by decide) (scalar_body Real.sqrt u v) (term_at Real.sqrt u v)
    (fun j s _ hj => scalar_body_block u v j s (by omega) (by omega)) n 0 0 (Nat.mod_one 0)
    (by omega)]
  rw [zero_add, Finset.range_eq_Ico]

/-- Over the reals the scalar `distance_opt` on buffers of length `n` is the sum
of the terms below the end of the last worker range. -/
theorem distance_opt_scalar_sum_end (u v : List ℝ) (n p : Nat) (hu : u.length = n)
    (hv : v.length = n) (hp : 1 ≤ p) :
    distance_opt Simd.scalar Real.sqrt u v n p
      = some (Finset.sum (Finset.range (range_end n (n / p) (p - 1)))
          (term_at Real.sqrt u v)) := by
  have hE : aligned_end (size Simd.scalar) n = n := by simp [aligned_end, size, Nat.mod_one]
  have hk : base_chunk (size Simd.scalar) n p = n / p := by unfold base_chunk; rw [hE]
  rw [distance_opt_eq Simd.scalar Real.sqrt u v n p (fun j =>
    Finset.sum (Finset.Ico (range_begin (n / p) j) (range_end n (n / p) j))
      (term_at Real.sqrt u v))]
  · rw [hE, for_loop_done _ _ _ _ _ _ (Nat.le_refl _), foldl_parts_eq_sum,
      sum_worker_ranges _ n p hp, Finset.range_eq_Ico]
  · intro j hj
    rw [hE, hk]
    exact thread_fctn_sum Simd.scalar u v _ _ (range_begin_le_end n p j hj)
      (by rw [hu]; exact range_end_le n p j hj) (by rw [hv]; exact range_end_le n p j hj)
      (by simp [size]) (by simp [size])

/-- When `p` divides `E` the last range ends at `E`, whether or not the product
of the test fits in an `int`. -/
theorem last_range_end_of_dvd (E p : Nat) (hp : 1 ≤ p) (hd : E % p = 0) :
    range_end E (E / p) (p - 1) = E := by
  have hdm := Nat.div_add_mod E p
  have e2 : (p - 1 + 1) * (E / p) = p * (E / p) := by
    have : p - 1 + 1 = p := by omega
    rw [this]
  unfold range_end
  split
  · rfl
  · omega

/-- Over the reals, when the product `(p + 1) * (n / p)` fits in an `int`, the
scalar `distance_opt` on buffers of length `n` is the sum of the terms below
`c`. -/
theorem distance_opt_scalar_sum (u v : List ℝ) (n p : Nat) (hu : u.length = n)
    (hv : v.length = n) (hp : 1 ≤ p) (hov : (p + 1) * (n / p) ≤ 2147483647) :
    distance_opt Simd.scalar Real.sqrt u v n p
      = some (Finset.sum
          (Finset.range (if n % p = 0 ∨ n / p > n % p then n else p * (n / p)))
          (term_at Real.sqrt u v)) := by
  rw [distance_opt_scalar_sum_end u v n p hu hv hp, last_range_end n p hp hov]

/-- C17 (amended): in the scalar variant, over the reals, for buffers of length
`n` and `p ≥ 1` for which the largest product of the extension test,
`(p + 1) * (n / p)`, does not leave the range of `int` (it is at most
`2^31 - 1`), `distance_opt` returns the sum over `i < c` of `(√u[i] - √v[i])²`,
where `c = n` if `n mod p = 0` or `n / p > n mod p` and `c = p * (n / p)`
otherwise; so it equals `distance` whenever `n mod p = 0` or `n / p > n mod p`;
and for `p = 1` it equals `distance` for every `n`. -/
theorem distance_opt_scalar_upto (u v : List ℝ) (n p : Nat) (hu : u.length = n)
    (hv : v.length = n) (hp : 1 ≤ p) (hov : (p + 1) * (n / p) ≤ 2 ^ 31 - 1) :
    distance_opt Simd.scalar Real.sqrt u v n p
      = some (Finset.sum
          (Finset.range (if n % p = 0 ∨ n / p > n % p then n else p * (n / p)))
          (fun i => (Real.sqrt (u.getD i 0) - Real.sqrt (v.getD i 0)) ^ 2))
    ∧ ((n % p = 0 ∨ n / p > n % p) →
        distance_opt Simd.scalar Real.sqrt u v n p = distance Real.sqrt u v n)
    ∧ distance_opt Simd.scalar Real.sqrt u v n 1 = distance Real.sqrt u v n := by
  have ht : term_at Real.sqrt u v
      = fun i => (Real.sqrt (u.getD i 0) - Real.sqrt (v.getD i 0)) ^ 2 := by
    funext i
    simp [term_at, sq_diff, sq]
  have hM : (2 : Nat) ^ 31 - 1 = 2147483647 := by norm_num
  rw [hM] at hov
  refine ⟨?_, ?_, ?_⟩
  · rw [distance_opt_scalar_sum u v n p hu hv hp hov, ht]
  · intro hc
    rw [distance_opt_scalar_sum u v n p hu hv hp hov, distance_eq_sum u v n hu hv, if_pos hc]
  · rw [distance_opt_scalar_sum_end u v n 1 hu hv (Nat.le_refl _), distance_eq_sum u v n hu hv,
      last_range_end_of_dvd n 1 (Nat.le_refl _) (Nat.mod_one n)]

/-- Witness of C17 (amended): `u = [1, 4, 9]`, `v = [1, 1, 1]`, two workers:
`3 mod 2 = 1` is not below `3 / 2 = 1`, so the sum stops at `c = 2`. -/
theorem distance_opt_scalar_upto_witness :
    ([1, 4, 9] : List ℝ).length = 3 ∧ ([1, 1, 1] : List ℝ).length = 3 ∧ 1 ≤ 2
    ∧ (2 + 1) * (3 / 2) ≤ 2 ^ 31 - 1
    ∧ distance_opt Simd.scalar Real.sqrt [1, 4, 9] [1, 1, 1] 3 2
      = some (Finset.sum
          (Finset.range (if 3 % 2 = 0 ∨ 3 / 2 > 3 % 2 then 3 else 2 * (3 / 2)))
          (fun i => (Real.sqrt (([1, 4, 9] : List ℝ).getD i 0)
            - Real.sqrt (([1, 1, 1] : List ℝ).getD i 0)) ^ 2)) :=
  ⟨rfl, rfl, by decide, by decide,
    (distance_opt_scalar_upto [1, 4, 9] [1, 1, 1] 3 2 rfl rfl (by decide) (by decide)).1⟩

/-- The sum of the first `m ≤ N` terms of `N` ones against `N` zeros is `m`. -/
theorem sum_terms_ones_zeros (N m : Nat) (hm : m ≤ N) :
    Finset.sum (Finset.range m)
        (term_at Real.sqrt (List.replicate N (1 : ℝ)) (List.replicate N (0 : ℝ)))
      = (m : ℝ) := by
  have h1 : ∀ x ∈ Finset.range m,
      term_at Real.sqrt (List.replicate N (1 : ℝ)) (List.replicate N (0 : ℝ)) x = 1 := by
    intro x hx
    have hx' : x < N := Nat.lt_of_lt_of_le (Finset.mem_range.mp hx) hm
    simp [term_at, sq_diff, List.getD_eq_getElem?_getD, List.getElem?_replicate_of_lt hx']
  rw [Finset.sum_congr rfl h1]
  simp

/-- On `N` ones against `N` zeros, over the reals, `distance` is `N` and the scalar
`distance_opt` is the end of the last worker range. -/
theorem ones_zeros_scalar (N p : Nat) (hp : 1 ≤ p) :
    distance Real.sqrt (List.replicate N (1 : ℝ)) (List.replicate N (0 : ℝ)) N
      = some (N : ℝ)
    ∧ distance_opt Simd.scalar Real.sqrt (List.replicate N (1 : ℝ))
        (List.replicate N (0 : ℝ)) N p
      = some ((range_end N (N / p) (p - 1) : Nat) : ℝ) := by
  refine ⟨?_, ?_⟩
  · rw [distance_eq_sum _ _ N (List.length_replicate _ _) (List.length_replicate _ _),
      sum_terms_ones_zeros N N (Nat.le_refl _)]
  · rw [distance_opt_scalar_sum_end _ _ N p (List.length_replicate _ _)
      (List.length_replicate _ _) hp,
      sum_terms_ones_zeros N _ (by
        have := range_end_le N p (p - 1) (by omega)
        exact this)]

/-- The end of the last range for `n = 2147483640` and seven workers: the 32-bit
product of the test is negative and the last worker is not extended. -/
theorem range_end_overflow_value :
    range_end 2147483640 (2147483640 / 7) (7 - 1) = 2147483639 := by
  simp [range_end, wrap32]

/-- C17 (counterexample): in the scalar variant with `n = 2147483640`, seven
workers and the buffers `u = [1 × n]`, `v = [0 × n]`, `n mod p = 1 < n / p`, so
`c = n` and the sum over `i < c` is `2147483640`, the value of `distance`; but the
product `8 * k = 2454267016` of the test of the last worker does not fit in an
`int`, the last range ends at `7 * k = 2147483639`, and `distance_opt` returns
`2147483639`. -/
theorem distance_opt_scalar_overflow :
    (2147483640 % 7 = 0 ∨ 2147483640 / 7 > 2147483640 % 7)
    ∧ distance Real.sqrt (List.replicate 2147483640 (1 : ℝ))
        (List.replicate 2147483640 (0 : ℝ)) 2147483640 = some 2147483640
    ∧ distance_opt Simd.scalar Real.sqrt (List.replicate 2147483640 (1 : ℝ))
        (List.replicate 2147483640 (0 : ℝ)) 2147483640 7 = some 2147483639 :=
  ⟨Or.inr (by norm_num),
    (ones_zeros_scalar 2147483640 7 (by norm_num)).1.trans (by norm_num),
    ((ones_zeros_scalar 2147483640 7 (by norm_num)).2.trans
      (congrArg (fun m : Nat => some (m : ℝ)) range_end_overflow_value)).trans (by norm_num)⟩

/-! ## Reads past the end of the buffers -/

/-- C18 (failing input): in the two SSE variants with `n = 4` and two workers
the ranges are `[0, 2)` and `[2, 4)`; the loop of worker 1 starts at `i = 2 < 4`
and loads the four floats `u [2] .. u [5]`, two of them past the end of the
four-element buffers, so `distance_opt` has no result. -/
theorem sse_worker_reads_past_end :
    worker_ranges (size Simd.sse) 4 2 = [(0, 2), (2, 4)]
    ∧ _mm_load_ps ([1, 1, 1, 1] : List ℝ) 2 = none
    ∧ thread_fctn Simd.sse Real.sqrt
        { u := [1, 1, 1, 1], v := [0, 0, 0, 0], begin := 2, end_ := 4, sum := none } = none
    ∧ thread_fctn Simd.sse3 Real.sqrt
        { u := [1, 1, 1, 1], v := [0, 0, 0, 0], begin := 2, end_ := 4, sum := none } = none
    ∧ distance_opt Simd.sse Real.sqrt [1, 1, 1, 1] [0, 0, 0, 0] 4 2 = none
    ∧ distance_opt Simd.sse3 Real.sqrt [1, 1, 1, 1] [0, 0, 0, 0] 4 2 = none := by
  refine ⟨by decide, ?_, ?_, ?_, ?_, ?_⟩
  · simp [_mm_load_ps]
  · simp [thread_fctn, for_loop, sse_body, _mm_load_ps]
  · simp [thread_fctn, for_loop, sse_body, _mm_load_ps]
  · simp [distance_opt, for_loop, spawn_body, thread_fctn, sse_body, _mm_load_ps, _mm_sqrt_ps,
      _mm_sub_ps, _mm_mul_ps, _mm_add_ps, _mm_movehl_ps, _mm_shuffle_ps, _mm_add_ss,
      _mm_cvtss_f32, M128.lane, aligned_end, base_chunk, size, range_begin, range_end, wrap32]
  · simp [distance_opt, for_loop, spawn_body, thread_fctn, sse_body, _mm_load_ps, _mm_sqrt_ps,
      _mm_sub_ps, _mm_mul_ps, _mm_hadd_ps, _mm_cvtss_f32, aligned_end, base_chunk, size,
      range_begin, range_end, wrap32]

/-! ## The planner in 32-bit arithmetic -/

/-- The bounds of the values of the planner for `n ≤ 2^30 - 1`. -/
theorem planner_bounds (w n p i : Nat) (hn : n ≤ 1073741823) (hi : i < p) :
    n % w ≤ n ∧ aligned_end w n ≤ 1073741823 ∧ base_chunk w n p ≤ 1073741823
    ∧ i * base_chunk w n p ≤ 1073741823
    ∧ (i + 1) * base_chunk w n p ≤ 1073741823
    ∧ (i + 2) * base_chunk w n p ≤ 2147483646
    ∧ (aligned_end w n < p → base_chunk w n p = 0) := by
  have hE := aligned_end_le w n
  have hpk := chunks_le (aligned_end w n) p
  have h1 : (i + 1) * (aligned_end w n / p) ≤ p * (aligned_end w n / p) :=
    Nat.mul_le_mul_right _ (by omega)
  have h2 : (i + 2) * (aligned_end w n / p)
      = (i + 1) * (aligned_end w n / p) + aligned_end w n / p := by
    rw [Nat.add_mul (i + 1) 1, Nat.one_mul]
  have h3 : i * (aligned_end w n / p) ≤ (i + 1) * (aligned_end w n / p) :=
    Nat.mul_le_mul_right _ (by omega)
  have h4 : aligned_end w n / p ≤ aligned_end w n := Nat.div_le_self _ _
  unfold base_chunk
  refine ⟨Nat.mod_le _ _, by omega, by omega, by omega, by omega, by omega, ?_⟩
  intro hlt
  exact Nat.div_eq_of_lt hlt

/-- In 32 bits, `end` is the unbounded `end`. -/
theorem end32_eq (w n : Nat) (hn : n ≤ 1073741823) : end32 w n = aligned_end w n := by
  have hE := aligned_end_le w n
  have hm := Nat.mod_le n w
  unfold end32
  rw [← Int.ofNat_tmod, wrap32_natCast _ (by omega)]
  have : ((n : Int) - ((n % w : Nat) : Int)) = ((aligned_end w n : Nat) : Int) := by
    unfold aligned_end
    omega
  rw [this]
  exact wrap32_natCast _ (by omega)

/-- In 32 bits, `k` is the unbounded `k`. -/
theorem k32_eq (w n p : Nat) (hn : n ≤ 1073741823) : k32 w n p = base_chunk w n p := by
  have hE := aligned_end_le w n
  have h4 : aligned_end w n / p ≤ aligned_end w n := Nat.div_le_self _ _
  unfold k32 base_chunk
  rw [end32_eq w n hn, ← Int.ofNat_tdiv]
  exact wrap32_natCast _ (by omega)

/-- C19: for `0 ≤ n ≤ 2^30 - 1`, every `p ≥ 1`, every variant and every worker
index `i < p`, the values `n % size`, `end`, `end / nprocs`, `i * k`,
`(i + 1) * k` and `(i + 2) * k` of the planner lie in `[0, 2^31 - 1]`; and when
`p` itself is an `int`, the planner evaluated with every operation wrapped to 32
bits gives the same `end`, `k`, `begin_i` and `end_i` as the unbounded one.  The
factors `i + 1` and `i + 2` are themselves in range as soon as `p ≤ 2^31 - 2`. -/
theorem planner_no_overflow (isa : Simd) (n p i : Nat) (hn : n ≤ 2 ^ 30 - 1) (hp : 1 ≤ p)
    (hi : i < p) :
    (0 ≤ n % size isa ∧ n % size isa ≤ 2 ^ 31 - 1)
    ∧ (0 ≤ aligned_end (size isa) n ∧ aligned_end (size isa) n ≤ 2 ^ 31 - 1)
    ∧ (0 ≤ base_chunk (size isa) n p ∧ base_chunk (size isa) n p ≤ 2 ^ 31 - 1)
    ∧ (0 ≤ i * base_chunk (size isa) n p ∧ i * base_chunk (size isa) n p ≤ 2 ^ 31 - 1)
    ∧ (0 ≤ (i + 1) * base_chunk (size isa) n p
        ∧ (i + 1) * base_chunk (size isa) n p ≤ 2 ^ 31 - 1)
    ∧ (0 ≤ (i + 2) * base_chunk (size isa) n p
        ∧ (i + 2) * base_chunk (size isa) n p ≤ 2 ^ 31 - 1)
    ∧ (p ≤ 2 ^ 31 - 1 →
        end32 (size isa) n = aligned_end (size isa) n
        ∧ k32 (size isa) n p = base_chunk (size isa) n p
        ∧ begin32 (base_chunk (size isa) n p) i = range_begin (base_chunk (size isa) n p) i
        ∧ range_end32 (aligned_end (size isa) n) (base_chunk (size isa) n p) i
            = range_end (aligned_end (size isa) n) (base_chunk (size isa) n p) i)
    ∧ (p ≤ 2 ^ 31 - 2 → i + 1 ≤ 2 ^ 31 - 1 ∧ i + 2 ≤ 2 ^ 31 - 1) := by
  have hn' : n ≤ 1073741823 := by
    have : (2 : Nat) ^ 30 - 1 = 1073741823 := by norm_num
    omega
  have hM : (2 : Nat) ^ 31 - 1 = 2147483647 := by norm_num
  obtain ⟨b0, b1, b2, b3, b4, b5, b6⟩ := planner_bounds (size isa) n p i hn' hi
  rw [hM]
  have hM2 : (2 : Nat) ^ 31 - 2 = 2147483646 := by norm_num
  rw [hM2]
  refine ⟨⟨Nat.zero_le _, by omega⟩, ⟨Nat.zero_le _, by omega⟩, ⟨Nat.zero_le _, by omega⟩,
    ⟨Nat.zero_le _, by omega⟩, ⟨Nat.zero_le _, by omega⟩, ⟨Nat.zero_le _, by omega⟩, ?_,
    fun h => ⟨by omega, by omega⟩⟩
  intro hpM
  have hfit2 : (i + 2) * base_chunk (size isa) n p ≤ 2147483647 := Nat.le_succ_of_le b5
  have hfit : i + 2 ≤ 2147483647 ∨ base_chunk (size isa) n p = 0 := by
    by_cases hlt : aligned_end (size isa) n < p
    · exact Or.inr (b6 hlt)
    · exact Or.inl (by omega)
  have hmul0 : begin32 (base_chunk (size isa) n p) i
      = ((i * base_chunk (size isa) n p : Nat) : Int) := by
    unfold begin32
    have e : (i : Int) * (base_chunk (size isa) n p : Int)
        = ((i * base_chunk (size isa) n p : Nat) : Int) := by
      push_cast
      rfl
    rw [e]
    exact wrap32_natCast _ (by omega)
  have hmul1 := mul32_eq ((i : Int) + 1) (i + 1) (base_chunk (size isa) n p)
    (by push_cast; rfl) (Or.inl (by omega)) (by omega)
  have hmul2 := mul32_eq ((i : Int) + 2) (i + 2) (base_chunk (size isa) n p)
    (by push_cast; rfl) hfit (by omega)
  have hbeg : begin32 (base_chunk (size isa) n p) i
      = ((range_begin (base_chunk (size isa) n p) i : Nat) : Int) := by
    unfold range_begin
    exact hmul0
  refine ⟨end32_eq (size isa) n hn', k32_eq (size isa) n p hn', hbeg, ?_⟩
  rw [range_end_eq (aligned_end (size isa) n) (base_chunk (size isa) n p) i hfit2]
  unfold range_end32
  rw [hmul1, hmul2]
  by_cases ht : (i + 2) * base_chunk (size isa) n p > aligned_end (size isa) n
  · rw [if_pos ht, if_pos (Int.ofNat_lt.mpr ht)]
  · rw [if_neg ht, if_neg (fun h => ht (Int.ofNat_lt.mp h))]

/-- Witness of C19: AVX variant, `n = 2^30 - 1`, three workers, worker 2. -/
theorem planner_no_overflow_witness :
    1073741823 ≤ 2 ^ 30 - 1 ∧ 1 ≤ 3 ∧ 2 < 3
    ∧ (0 ≤ (2 + 2) * base_chunk (size Simd.avx) 1073741823 3
        ∧ (2 + 2) * base_chunk (size Simd.avx) 1073741823 3 ≤ 2 ^ 31 - 1) :=
  ⟨by norm_num, by norm_num, by norm_num,
    (planner_no_overflow Simd.avx 1073741823 3 2 (by norm_num) (by norm_num)
      (by norm_num)).2.2.2.2.2.1⟩

end MultithreadsComputing
